import Mathlib

/-!
Verification development for the Vantage AI gateway.

The definitions below are a shallow embedding of the gateway's pipeline:
the governance middleware (forbidden-keyword blocking and PII redaction),
the audit middleware (interaction capture and the bounded, lossy audit
queue), the audit worker (token extraction, safety scoring, per-item
fault recovery) and the persistence store's listing operation.

Byte strings are modelled as Lean `String`/`List Char`; JSON numbers as
`Int`; classifier confidences as `ℚ`.  Wall-clock fields (timestamps,
durations) are outside the embedding.  The three PII regular expressions
are embedded as executable leftmost matchers with Go's greedy
(leftmost-first) semantics, and `replaceAll` mirrors
`Regexp.ReplaceAllString`'s non-overlapping scan.
-/

namespace Vantage

/-! ## Generic helpers -/

/-- First-match association-list lookup (used for JSON objects, HTTP
headers and classifier label maps). -/
def alookup {β : Type} : List (String × β) → String → Option β
  | [], _ => none
  | (k', v) :: rest, k => if k' = k then some v else alookup rest k

/-- Remove every binding of a key (models deleting a header). -/
def removeKey {β : Type} (l : List (String × β)) (k : String) : List (String × β) :=
  l.filter (fun kv => kv.1 ≠ k)

/-- Replace any existing binding of a key with a single new one (models
`http.Header.Set`). -/
def setPair {β : Type} (l : List (String × β)) (k : String) (v : β) : List (String × β) :=
  removeKey l k ++ [(k, v)]

/-- ASCII lower-casing of one character, the fragment of
`strings.ToLower` relevant to the configured keyword alphabet. -/
def toLowerChar (c : Char) : Char :=
  if 'A' ≤ c ∧ c ≤ 'Z' then Char.ofNat (c.toNat + 32) else c

/-- Substring containment on character lists (`strings.Contains`). -/
def containsSub : List Char → List Char → Bool
  | hay, needle =>
    needle.isPrefixOf hay ||
      match hay with
      | [] => false
      | _ :: t => containsSub t needle

/-- Case-insensitive substring check used by the keyword rule:
`strings.Contains(strings.ToLower(body), strings.ToLower(kw))`. -/
def containsCI (body kw : String) : Bool :=
  containsSub (body.data.map toLowerChar) (kw.data.map toLowerChar)

/-- Substring test on strings (`strings.Contains`), used for the
token-bearing path check `strings.Contains(i.Path, "/chat")`. -/
def strContains (s sub : String) : Bool :=
  containsSub s.data sub.data

/-! ## JSON values

A parsed JSON document as produced by `encoding/json` unmarshalling into
`map[string]interface{}`.  Numbers are modelled as integers (every token
count in the pipeline is integral). -/

inductive Json where
  | null
  | bool (b : Bool)
  | num (n : Int)
  | str (s : String)
  | arr (elems : List Json)
  | obj (fields : List (String × Json))

/-! ## Audit worker: token extraction -/

/-- Integer value of a field, `0` when absent or not a number (the
failed type assertion `.(float64)` adds nothing). -/
def numOr0 (o : List (String × Json)) (k : String) : Int :=
  match alookup o k with
  | some (Json.num n) => n
  | _ => 0

/-- Token sum contributed by one nested shape (`billed_units` or
`tokens`) under the `meta` object: `input_tokens + output_tokens`,
`0` when the shape is absent or not an object. -/
def sumShape (m : List (String × Json)) (key : String) : Int :=
  match alookup m key with
  | some (Json.obj bu) => numOr0 bu "input_tokens" + numOr0 bu "output_tokens"
  | _ => 0

/-- Token extraction step of `processInteraction`: only attempted for a
200 status on a `/chat` path; the response body (`none` when
unmarshalling failed, and only a top-level object unmarshals into the
raw map) is probed for `meta.billed_units` and then `meta.tokens`, and
both `if` blocks add into the same accumulator. -/
def extractTokens (statusCode : Nat) (path : String) (respBody : Option Json) : Int :=
  if statusCode = 200 ∧ strContains path "/chat" = true then
    match respBody with
    | some (Json.obj fields) =>
      match alookup fields "meta" with
      | some (Json.obj m) => sumShape m "billed_units" + sumShape m "tokens"
      | _ => 0
    | _ => 0
  else 0

/-! ## Audit worker: safety scoring -/

/-- Result of unmarshalling the request body into
`struct { Message string }`: `none` models an unmarshal error (body not
a JSON object, or a `message` field of the wrong type); a missing or
`null` field leaves the zero value `""`. -/
def decodeChatMessage : Option Json → Option String
  | none => none
  | some j =>
    match j with
    | Json.obj fields =>
      match alookup fields "message" with
      | none => some ""
      | some (Json.str s) => some s
      | some Json.null => some ""
      | some _ => none
    | _ => none

/-- One entry of the classifier response: a label-confidence map and a
predicted label. -/
structure Classification where
  labels : List (String × ℚ)
  prediction : String

/-- Safety scoring step `performSafetyAudit`.  The classifier call is
abstracted as a function from the extracted message to `none` (network
or decode failure, which the caller treats like an empty classification
list) or the decoded classification list.  Returns the recorded score
and whether a classification call was made. -/
def performSafetyAudit (reqBody : Option Json)
    (classify : String → Option (List Classification)) : ℚ × Bool :=
  match decodeChatMessage reqBody with
  | none => (1, false)
  | some msg =>
    if msg = "" then (1, false)
    else
      match classify msg with
      | none => (1, true)
      | some [] => (1, true)
      | some (c :: _) =>
        match alookup c.labels "safe" with
        | some conf => (conf, true)
        | none => if c.prediction = "safe" then (1, true) else (0, true)

/-! ## PII redaction: character classes of the three patterns -/

/-- ASCII letter. -/
def isAlphaChar (c : Char) : Bool :=
  decide (('A' ≤ c ∧ c ≤ 'Z') ∨ ('a' ≤ c ∧ c ≤ 'z'))

/-- ASCII digit, the `\d` class. -/
def isDigitChar (c : Char) : Bool :=
  decide ('0' ≤ c ∧ c ≤ '9')

/-- Hexadecimal digit, the `[0-9a-fA-F]` class of the UUID pattern. -/
def isHexChar (c : Char) : Bool :=
  isDigitChar c || decide (('a' ≤ c ∧ c ≤ 'f') ∨ ('A' ≤ c ∧ c ≤ 'F'))

/-- The e-mail local-part class `[a-zA-Z0-9._%+-]`. -/
def isLocalChar (c : Char) : Bool :=
  isAlphaChar c || isDigitChar c ||
    decide (c = '.' ∨ c = '_' ∨ c = '%' ∨ c = '+' ∨ c = '-')

/-- The e-mail domain class `[a-zA-Z0-9.-]`. -/
def isDomainChar (c : Char) : Bool :=
  isAlphaChar c || isDigitChar c || decide (c = '.' ∨ c = '-')

/-- The `\s` whitespace class of RE2. -/
def isSpaceChar (c : Char) : Bool :=
  decide (c = '\t' ∨ c = '\n' ∨ c = '\x0c' ∨ c = '\r' ∨ c = ' ')

/-- The separator class `[\s.-]` of the phone pattern. -/
def isSepChar (c : Char) : Bool :=
  isSpaceChar c || decide (c = '.' ∨ c = '-')

/-- Every character a match of the e-mail pattern can contain. -/
def emailAlpha (c : Char) : Bool :=
  isLocalChar c || decide (c = '@')

/-- Every character a match of the phone pattern can contain. -/
def phoneAlpha (c : Char) : Bool :=
  isDigitChar c || isSepChar c || decide (c = '+' ∨ c = '(' ∨ c = ')')

/-- Every character a match of the UUID pattern can contain. -/
def uuidAlpha (c : Char) : Bool :=
  isHexChar c || decide (c = '-')

/-! ## PII redaction: leftmost matchers

Each `try…` function decides whether a match of the pattern starts at
the head of the list and returns its length (for the greedy,
leftmost-first semantics of Go's `regexp`, the first length in
backtracking order). -/

/-- Length of the maximal ASCII-letter run at the head, the greedy
`[a-zA-Z]{2,}` candidate of the e-mail TLD. -/
def alphaRunLen (l : List Char) : Nat :=
  (l.takeWhile isAlphaChar).length

/-- Backtracking search for the split of the e-mail domain text `d`
into `[a-zA-Z0-9.-]+ \. [a-zA-Z]{2,}`: candidate dot positions are
tried from the largest (greedy `+`) down to index `1`; on success the
matched length inside `d` (domain run, dot and TLD run) is returned. -/
def dotSearch (d : List Char) : Nat → Option Nat
  | 0 => none
  | j + 1 =>
    if d[j + 1]? = some '.' ∧ 2 ≤ alphaRunLen (d.drop (j + 2)) then
      some (j + 2 + alphaRunLen (d.drop (j + 2)))
    else dotSearch d j

/-- Leftmost-anchored matcher of
`[a-zA-Z0-9._%+-]+@[a-zA-Z0-9.-]+\.[a-zA-Z]{2,}`: a nonempty local
run, a literal `@`, then the backtracking domain search.  (Shortening
the greedy local run can never help: the character after a shortened
run is again a local character, not `@`.) -/
def tryEmail (s : List Char) : Option Nat :=
  match s.dropWhile isLocalChar with
  | '@' :: s2 =>
    if (s.takeWhile isLocalChar).length = 0 then none
    else
      Option.map (fun w => (s.takeWhile isLocalChar).length + 1 + w)
        (dotSearch (s2.takeWhile isDomainChar) (s2.takeWhile isDomainChar).length)
  | _ => none

/-- Shape check for the 36-character UUID pattern
`[0-9a-fA-F]{8}-[0-9a-fA-F]{4}-[0-9a-fA-F]{4}-[0-9a-fA-F]{4}-[0-9a-fA-F]{12}`:
dashes at offsets 8, 13, 18, 23 and hex digits elsewhere. -/
def uuidShape (t : List Char) : Bool :=
  t.length = 36 &&
    (List.range 36).all (fun i =>
      match t[i]? with
      | some c =>
        if i = 8 ∨ i = 13 ∨ i = 18 ∨ i = 23 then decide (c = '-') else isHexChar c
      | none => false)

/-- Leftmost-anchored matcher of the UUID pattern (fixed length 36, no
quantifier flexibility). -/
def tryUuid (s : List Char) : Option Nat :=
  if uuidShape (s.take 36) then some 36 else none

/-- Consume one character satisfying `P`, then continue with `k`;
returns the total matched length. -/
def consumeIf (P : Char → Bool) (k : List Char → Option Nat) : List Char → Option Nat
  | [] => none
  | c :: rest => if P c then (k rest).map (· + 1) else none

/-- Greedy optional character (`X?` for a one-character class `X`): the
present branch is preferred, with fallback to the absent branch when
the continuation fails. -/
def optionalIf (P : Char → Bool) (k : List Char → Option Nat) : List Char → Option Nat
  | c :: rest =>
    if P c then
      match k rest with
      | some n => some (n + 1)
      | none => k (c :: rest)
    else k (c :: rest)
  | [] => k []

/-- Exactly `n` digits (`\d{n}`), then continue with `k`. -/
def digitsN : Nat → (List Char → Option Nat) → List Char → Option Nat
  | 0, k => k
  | n + 1, k => consumeIf isDigitChar (digitsN n k)

/-- The empty continuation at the end of the phone pattern. -/
def matchEnd : List Char → Option Nat := fun _ => some 0

/-- The `\(?\d{3}\)?[\s.-]?\d{3}[\s.-]?\d{4}` core of the phone
pattern, starting at the three leading digits. -/
def phoneCore : List Char → Option Nat :=
  digitsN 3 (optionalIf (fun c => decide (c = ')'))
    (optionalIf isSepChar (digitsN 3 (optionalIf isSepChar (digitsN 4 matchEnd)))))

/-- The phone pattern without its optional country-code group,
beginning at the optional `(`. -/
def phoneNoCc : List Char → Option Nat :=
  optionalIf (fun c => decide (c = '(')) phoneCore

/-- The optional greedy country-code group `(\+\d{1,2}\s?)?`: `+`, then
two digits before one (`{1,2}` is greedy), then an optional space,
then the rest of the pattern. -/
def phonePlus (s : List Char) : Option Nat :=
  match s with
  | '+' :: rest =>
    (match digitsN 2 (optionalIf isSpaceChar phoneNoCc) rest with
     | some n => some (n + 1)
     | none =>
       match digitsN 1 (optionalIf isSpaceChar phoneNoCc) rest with
       | some n => some (n + 1)
       | none => none)
  | _ => none

/-- Leftmost-anchored matcher of
`(\+\d{1,2}\s?)?\(?\d{3}\)?[\s.-]?\d{3}[\s.-]?\d{4}`: the present
country-code branch is preferred, falling back to the pattern without
it. -/
def tryPhone (s : List Char) : Option Nat :=
  match phonePlus s with
  | some n => some n
  | none => phoneNoCc s

/-- Replacement marker for e-mail matches. -/
def emailMarker : List Char := "[REDACTED_EMAIL]".data

/-- Replacement marker for phone matches. -/
def phoneMarker : List Char := "[REDACTED_PHONE]".data

/-- Replacement marker for UUID matches. -/
def uuidMarker : List Char := "[REDACTED_UUID]".data

/-- Fuel-indexed body of the non-overlapping leftmost replacement: at
each position either replace a match and resume after it, or copy one
character.  The fuel only makes the recursion structural; it is spent
at most once per character. -/
def replaceAllF (tm : List Char → Option Nat) (marker : List Char) :
    Nat → List Char → List Char
  | _, [] => []
  | 0, s => s
  | fuel + 1, c :: rest =>
    match tm (c :: rest) with
    | some n => marker ++ replaceAllF tm marker fuel (List.drop (max n 1) (c :: rest))
    | none => c :: replaceAllF tm marker fuel rest

/-- Non-overlapping leftmost replacement (`Regexp.ReplaceAllString`):
scan left to right with enough fuel for the whole input.  (`max n 1`
only guards progress; every matcher below returns positive lengths.) -/
def replaceAll (tm : List Char → Option Nat) (marker : List Char) (s : List Char) :
    List Char :=
  replaceAllF tm marker s.length s

/-- Number of leading scan positions at which the matcher fails (the
literal prefix copied verbatim by `replaceAll`). -/
def scanLen (tm : List Char → Option Nat) : List Char → Nat
  | [] => 0
  | c :: rest =>
    match tm (c :: rest) with
    | some _ => 0
    | none => scanLen tm rest + 1

/-- No match of the given matcher starts at any position of the
string (the exhaustiveness property of a finished replacement). -/
def noMatchAll (tm : List Char → Option Nat) (s : List Char) : Prop :=
  ∀ p, tm (List.drop p s) = none

/-- A matcher never reads past a character outside its alphabet: the
continuation beyond such a character is irrelevant. -/
def CutP (A : Char → Bool) (f : List Char → Option Nat) : Prop :=
  ∀ u c w, A c = false → f (u ++ c :: w) = f (u ++ [c])

/-- Every character covered by a match lies in the matcher's
alphabet. -/
def CharsP (A : Char → Bool) (f : List Char → Option Nat) : Prop :=
  ∀ s n, f s = some n → ∀ i, i < n → ∃ a, s[i]? = some a ∧ A a = true

/-- A matcher only returns positive match lengths. -/
def PosP (f : List Char → Option Nat) : Prop :=
  ∀ s n, f s = some n → 1 ≤ n

/-- A match that lies entirely inside a fixed prefix survives any
change of the continuation (possibly with a different length). -/
def ExtP (f : List Char → Option Nat) : Prop :=
  ∀ u v v' n, f (u ++ v) = some n → n ≤ u.length → ∃ m, f (u ++ v') = some m

/-- The full PII redactor of the governance middleware: e-mail, then
phone, then UUID replacement, in the order of the source. -/
def redactChars (s : List Char) : List Char :=
  replaceAll tryUuid uuidMarker
    (replaceAll tryPhone phoneMarker
      (replaceAll tryEmail emailMarker s))

/-- String-level redaction. -/
def redactStr (s : String) : String :=
  String.mk (redactChars s.data)

/-! ## Persistence store -/

/-- One persisted row of `interaction_logs` (store schema of
`db.go`). -/
structure InteractionRecord where
  id : Nat
  timestamp : Nat
  userID : String
  method : String
  path : String
  requestBody : String
  responseBody : String
  statusCode : Nat
  latencyMs : Int
  tokens : Int
  safetyScore : ℚ
  isBlocked : Bool
  isRedacted : Bool

/-- Timestamp-descending comparison used by `ORDER BY timestamp
DESC`. -/
def tsDesc (a b : InteractionRecord) : Prop :=
  b.timestamp ≤ a.timestamp

instance : DecidableRel tsDesc := fun a b => Nat.decLe b.timestamp a.timestamp

instance : IsTotal InteractionRecord tsDesc :=
  ⟨fun a b => Nat.le_total b.timestamp a.timestamp⟩

instance : IsTrans InteractionRecord tsDesc :=
  ⟨fun _ _ _ h1 h2 => Nat.le_trans h2 h1⟩

/-- `GetLogs`: `SELECT … ORDER BY timestamp DESC LIMIT ?`.  A negative
`LIMIT` means no limit in SQLite, a nonnegative one truncates. -/
def getLogs (table : List InteractionRecord) (limit : Int) : List InteractionRecord :=
  let sorted := List.insertionSort tsDesc table
  if limit < 0 then sorted else sorted.take limit.toNat

/-- Limit computation of the `/api/logs` handler: the `strconv.Atoi`
result (which is `0` for a missing or unparseable parameter) is
replaced by the default `50` exactly when it is zero. -/
def effectiveLimit (atoiResult : Int) : Int :=
  if atoiResult = 0 then 50 else atoiResult

/-! ## Pipeline data model -/

/-- One chunk written to the response stream: either the JSON encoding
of a `map[string]string` (kept as its canonical key-sorted binding
list, the order `encoding/json` serializes maps in) or opaque bytes
forwarded from upstream. -/
inductive RespChunk where
  | jsonMap (fields : List (String × String))
  | raw (s : String)

/-- Lexicographic byte order on character lists (the order
`encoding/json` sorts map keys in). -/
def charListLe : List Char → List Char → Bool
  | [], _ => true
  | _ :: _, [] => false
  | a :: as, b :: bs =>
    if a < b then true else if b < a then false else charListLe as bs

/-- Key order used by `encoding/json` when serializing a map. -/
def pairLe (a b : String × String) : Prop :=
  charListLe a.1.data b.1.data = true

instance : DecidableRel pairLe := fun a b =>
  inferInstanceAs (Decidable (charListLe a.1.data b.1.data = true))

/-- Canonical key-sorted form of a `map[string]string` literal. -/
def sortPairs (l : List (String × String)) : List (String × String) :=
  List.insertionSort pairLe l

/-- Response-writer state: the live header map, whether the status line
was flushed, the status and header snapshot on the wire, and the body
chunks written (mirrored by the audit wrapper's capture buffer). -/
structure RespState where
  headerMap : List (String × String)
  wroteHeader : Bool
  wireStatus : Nat
  wireHeaders : List (String × String)
  bodyChunks : List RespChunk

/-- `Header().Set`. -/
def setHeader (st : RespState) (k v : String) : RespState :=
  { st with headerMap := setPair st.headerMap k v }

/-- `WriteHeader`: the first call snapshots the header map and fixes
the wire status; later calls are ignored. -/
def writeHeaderOp (st : RespState) (code : Nat) : RespState :=
  if st.wroteHeader then st
  else { st with wroteHeader := true, wireStatus := code, wireHeaders := st.headerMap }

/-- `Write`: an implicit `WriteHeader(200)` on first use, then the
chunk is appended (to the wire and to the capture buffer alike). -/
def writeChunk (st : RespState) (ch : RespChunk) : RespState :=
  let st' := writeHeaderOp st 200
  { st' with bodyChunks := st'.bodyChunks ++ [ch] }

/-- An inbound HTTP request as the pipeline observes it. -/
structure Req where
  method : String
  path : String
  headers : List (String × String)
  body : Option String

/-- The in-flight audit event (struct `middleware.Interaction`;
wall-clock fields omitted). -/
structure Interaction where
  userID : String
  method : String
  path : String
  requestBody : String
  responseBody : List RespChunk
  statusCode : Nat
  isBlocked : Bool
  isRedacted : Bool

/-- Per-request pipeline state: the response writer, the request-scoped
out-of-band redaction signal (`context` value `"is_redacted"`), and the
audit queue shared with the worker. -/
structure PipeState where
  resp : RespState
  ctxRedacted : Option Bool
  queue : List Interaction

/-- A handler or middleware stage. -/
abbrev Handler := Req → PipeState → PipeState

/-- Non-blocking, lossy enqueue onto the bounded audit channel
(capacity 100, `make(chan Interaction, 100)`): the `select`/`default`
drops the new event when the queue is full. -/
def enqueueAudit (q : List Interaction) (i : Interaction) : List Interaction :=
  if q.length < 100 then q ++ [i] else q

/-- The fixed rejection payload `map[string]string` of the keyword
rule, in its canonical serialized form. -/
def rejectionFields : List (String × String) :=
  sortPairs [("error", "Security Policy Violation"), ("code", "FORBIDDEN_CONTENT")]

/-- GovernanceMiddleware: non-POST or bodyless requests pass through
untouched; a forbidden-keyword match (case-insensitive substring, in
configuration order) writes the 403 rejection and the internal block
marker and never calls `next`; otherwise the (possibly redacted) body
and the context redaction flag are handed to `next`. -/
def governanceMW (keywords : List String) (redactionEnabled : Bool)
    (next : Handler) : Handler := fun r ps =>
  if r.method = "POST" then
    match r.body with
    | none => next r ps
    | some bodyStr =>
      if keywords.any (fun kw => containsCI bodyStr kw) then
        let st1 := setHeader ps.resp "Content-Type" "application/json"
        let st2 := writeHeaderOp st1 403
        let st3 := writeChunk st2 (RespChunk.jsonMap rejectionFields)
        let st4 := setHeader st3 "X-Vantage-Blocked" "true"
        { ps with resp := st4 }
      else
        let newBody := if redactionEnabled then redactStr bodyStr else bodyStr
        let isRed := redactionEnabled && decide (redactStr bodyStr ≠ bodyStr)
        next { r with body := some newBody } { ps with ctxRedacted := some isRed }
  else next r ps

/-- Signal produced by the governance keyword rule for a body. -/
def govBlockSignal (keywords : List String) (b : String) : Bool :=
  keywords.any (fun kw => containsCI b kw)

/-- Redaction signal produced by the governance redactor for a body
that passed the keyword rule. -/
def govRedactSignal (redactionEnabled : Bool) (b : String) : Bool :=
  redactionEnabled && decide (redactStr b ≠ b)

/-- Modelled from the spec: the current `AuditMiddleware` body (the
variant populating `UserID`, `IsBlocked` and `IsRedacted`, whose
source is not under `src/`; only the `Interaction` struct, the worker
and the store consume it).  Per spec §4.2 it captures the original
pre-handler body bytes, derives `userID` from the `X-User-ID` identity
header with the `anonymous` sentinel, runs the wrapped stage, reads the
out-of-band redaction flag and the `X-Vantage-Blocked` response marker,
and strips the marker before the response is released.  Returns the
post-strip state and the assembled `Interaction`. -/
def auditObserve (next : Handler) (r : Req) (ps : PipeState) : PipeState × Interaction :=
  let reqBody := r.body.getD ""
  let uidRaw := (alookup r.headers "X-User-ID").getD ""
  let uid := if uidRaw = "" then "anonymous" else uidRaw
  let ps1 := next r ps
  let blockedSig := decide (alookup ps1.resp.headerMap "X-Vantage-Blocked" = some "true")
  let redSig := ps1.ctxRedacted.getD false
  let ps2 := { ps1 with resp := { ps1.resp with
    headerMap := removeKey ps1.resp.headerMap "X-Vantage-Blocked" } }
  (ps2,
    { userID := uid
      method := r.method
      path := r.path
      requestBody := reqBody
      responseBody := ps1.resp.bodyChunks
      statusCode := ps1.resp.wireStatus
      isBlocked := blockedSig
      isRedacted := redSig })

/-- Modelled from the spec: the full audit middleware — observe, then
hand the event to the bounded queue without blocking. -/
def auditMW (next : Handler) : Handler := fun r ps =>
  let (ps2, inter) := auditObserve next r ps
  { ps2 with queue := enqueueAudit ps2.queue inter }

/-- The proxy-pipeline composition of `setupRoutes`: the audit
middleware is installed first and therefore wraps the governance
middleware (redaction enabled), which wraps the upstream proxy. -/
def vantagePipeline (keywords : List String) (upstream : Handler) : Handler :=
  auditMW (governanceMW keywords true upstream)

/-- A fresh per-request pipeline state (empty headers, implicit 200,
empty body, no request-scoped flag) over a given queue. -/
def freshState (q : List Interaction) : PipeState :=
  { resp := { headerMap := [], wroteHeader := false, wireStatus := 200,
              wireHeaders := [], bodyChunks := [] }
    ctxRedacted := none
    queue := q }

/-- An upstream stub that writes nothing (used to instantiate theorems
at concrete inputs). -/
def stubHandler : Handler := fun _ ps => ps

/-! ## Audit worker: consumer loop and per-item recovery -/

/-- Outcome of handling one dequeued interaction: processed normally,
or a fault converted into a logged recovery by the deferred `recover`
at the top of `processInteraction`. -/
inductive ItemOutcome where
  | done (i : Interaction)
  | recovered (i : Interaction) (msg : String)

/-- One `processInteraction` call: the per-item work (metrics, token
parse, safety audit, store write — abstracted as `core`, with `.error`
modelling a panic at any step) runs inside the recovery boundary, so
the call always returns. -/
def processItem (core : Interaction → Except String Unit) (i : Interaction) : ItemOutcome :=
  match core i with
  | Except.ok _ => ItemOutcome.done i
  | Except.error e => ItemOutcome.recovered i e

/-- The consumer loop of `Worker.Start`, dequeuing in order until the
channel is drained (shutdown and channel-close paths excluded). -/
def workerLoop (core : Interaction → Except String Unit) : List Interaction → List ItemOutcome
  | [] => []
  | i :: rest => processItem core i :: workerLoop core rest

/-! ## Concrete sample values used to instantiate theorems -/

/-- A concrete interaction used to instantiate queue and worker
theorems. -/
def sampleInteraction : Interaction :=
  { userID := "anonymous", method := "POST", path := "/v1/chat",
    requestBody := "hi", responseBody := [], statusCode := 200,
    isBlocked := false, isRedacted := false }

/-- A concrete persisted record used to instantiate store theorems. -/
def sampleRecord : InteractionRecord :=
  { id := 1, timestamp := 10, userID := "anonymous", method := "POST",
    path := "/v1/chat", requestBody := "hi", responseBody := "ok",
    statusCode := 200, latencyMs := 3, tokens := 0, safetyScore := 1,
    isBlocked := false, isRedacted := false }

/-- A parsed response body carrying both token shapes under `meta`. -/
def bothShapesBody : Json :=
  Json.obj [("meta", Json.obj
    [("billed_units", Json.obj
        [("input_tokens", Json.num 10), ("output_tokens", Json.num 5)]),
     ("tokens", Json.obj
        [("input_tokens", Json.num 1), ("output_tokens", Json.num 2)])])]

/-- The spec's example response body: only `meta.billed_units`, with
10 input and 5 output tokens. -/
def billedOnlyBody : Json :=
  Json.obj [("meta", Json.obj
    [("billed_units", Json.obj
        [("input_tokens", Json.num 10), ("output_tokens", Json.num 5)])])]

/-- A classifier stub answering with a single `safe`-labelled
classification of confidence 97/100. -/
def safeClassifier : String → Option (List Classification) :=
  fun _ => some [{ labels := [("safe", 97 / 100)], prediction := "safe" }]

/-! # Theorems -/

/-! ## Association-list lemmas -/

theorem alookup_cons {β : Type} (k' : String) (v : β) (rest : List (String × β)) (k : String) :
    alookup ((k', v) :: rest) k = if k' = k then some v else alookup rest k := rfl

theorem alookup_append {β : Type} (a b : List (String × β)) (k : String) :
    alookup (a ++ b) k =
      match alookup a k with
      | some v => some v
      | none => alookup b k := by
  induction a with
  | nil => rfl
  | cons kv rest ih =>
    obtain ⟨k', v⟩ := kv
    rw [List.cons_append]
    by_cases h : k' = k
    · simp [alookup_cons, h]
    · simpa [alookup_cons, h] using ih

theorem alookup_removeKey_self {β : Type} (l : List (String × β)) (k : String) :
    alookup (removeKey l k) k = none := by
  induction l with
  | nil => rfl
  | cons kv rest ih =>
    obtain ⟨k', v⟩ := kv
    by_cases h : k' = k
    · simpa [removeKey, List.filter_cons, h] using ih
    · simpa [removeKey, List.filter_cons, h, alookup_cons] using ih

theorem alookup_removeKey_ne {β : Type} (l : List (String × β)) (k k' : String)
    (h : k' ≠ k) : alookup (removeKey l k) k' = alookup l k' := by
  induction l with
  | nil => rfl
  | cons kv rest ih =>
    obtain ⟨ka, v⟩ := kv
    by_cases hk : ka = k
    · subst hk
      simpa [removeKey, List.filter_cons, alookup_cons, Ne.symm h] using ih
    · by_cases hk' : ka = k'
      · simp only [removeKey, List.filter_cons] at ih ⊢
        subst hk'
        simp [hk, h, alookup_cons]
      · simp only [removeKey, List.filter_cons] at ih ⊢
        simpa [hk, hk', alookup_cons] using ih

theorem alookup_setPair_self {β : Type} (l : List (String × β)) (k : String) (v : β) :
    alookup (setPair l k v) k = some v := by
  unfold setPair
  rw [alookup_append, alookup_removeKey_self]
  simp [alookup_cons]

theorem alookup_setPair_ne {β : Type} (l : List (String × β)) (k : String) (v : β)
    (k' : String) (h : k' ≠ k) : alookup (setPair l k v) k' = alookup l k' := by
  unfold setPair
  rw [alookup_append, alookup_removeKey_ne l k k' h]
  cases hl : alookup l k' with
  | some w => rfl
  | none => simp [alookup, Ne.symm h]

/-! ## C5 — non-blocking, lossy enqueue -/

/-- C5: the audit enqueue never blocks; on a full queue (capacity 100)
the new event is dropped and the queue is unchanged — the oldest event
is never evicted — while a non-full queue receives the event at the
tail. -/
theorem c5_enqueue_lossy (q : List Interaction) (i : Interaction) :
    (q.length = 100 → enqueueAudit q i = q) ∧
    (q.length < 100 → enqueueAudit q i = q ++ [i]) := by
  constructor
  · intro h
    simp [enqueueAudit, h]
  · intro h
    simp [enqueueAudit, h]

/-- Witness for C5 at a concrete full queue and a concrete non-full
queue. -/
theorem c5_enqueue_lossy_witness :
    enqueueAudit (List.replicate 100 sampleInteraction) sampleInteraction =
      List.replicate 100 sampleInteraction ∧
    enqueueAudit [] sampleInteraction = [sampleInteraction] := by
  constructor
  · exact (c5_enqueue_lossy (List.replicate 100 sampleInteraction) sampleInteraction).1
      (by simp)
  · exact (c5_enqueue_lossy [] sampleInteraction).2 (by simp)

/-! ## C7 — per-item fault containment in the worker loop -/

theorem workerLoop_append (core : Interaction → Except String Unit)
    (a b : List Interaction) :
    workerLoop core (a ++ b) = workerLoop core a ++ workerLoop core b := by
  induction a with
  | nil => rfl
  | cons i rest ih => simp [workerLoop, ih]

theorem workerLoop_length (core : Interaction → Except String Unit)
    (q : List Interaction) : (workerLoop core q).length = q.length := by
  induction q with
  | nil => rfl
  | cons i rest ih => simp [workerLoop, ih]

/-- C7: a fault while processing one dequeued interaction is converted
into a recovered outcome by the per-item recovery boundary; the loop
still produces one outcome per queued item, and every item after the
faulty one is processed exactly as it would be alone. -/
theorem c7_fault_containment (core : Interaction → Except String Unit)
    (q1 q2 : List Interaction) (i : Interaction) (e : String)
    (hf : core i = Except.error e) :
    workerLoop core (q1 ++ i :: q2) =
      workerLoop core q1 ++ ItemOutcome.recovered i e :: workerLoop core q2 ∧
    (workerLoop core (q1 ++ i :: q2)).length = q1.length + 1 + q2.length := by
  constructor
  · rw [workerLoop_append]
    simp [workerLoop, processItem, hf]
  · rw [workerLoop_length]
    simp
    omega

/-- Witness for C7: a core that panics on every item still lets the
loop process the item after the faulty one. -/
theorem c7_fault_containment_witness :
    workerLoop (fun _ => Except.error "boom") ([] ++ sampleInteraction :: [sampleInteraction]) =
      workerLoop (fun _ => Except.error "boom") [] ++
        ItemOutcome.recovered sampleInteraction "boom" ::
          workerLoop (fun _ => Except.error "boom") [sampleInteraction] ∧
    (workerLoop (fun _ => Except.error "boom")
        ([] ++ sampleInteraction :: [sampleInteraction])).length = 0 + 1 + 1 :=
  c7_fault_containment (fun _ => Except.error "boom") [] [sampleInteraction]
    sampleInteraction "boom" rfl

/-! ## C9 — governance frame condition -/

/-- C9: the governance filter inspects only bodies on state-changing
(POST) requests; any other request is passed to the next stage with
the request and the whole pipeline state untouched. -/
theorem c9_frame (kws : List String) (en : Bool) (next : Handler)
    (r : Req) (ps : PipeState)
    (h : r.method ≠ "POST" ∨ r.body = none) :
    governanceMW kws en next r ps = next r ps := by
  rcases h with h | h
  · simp [governanceMW, h]
  · by_cases hm : r.method = "POST"
    · simp [governanceMW, hm, h]
    · simp [governanceMW, hm]

/-! ## C3 — keyword blocking -/

theorem rejectionFields_eq :
    rejectionFields =
      [("code", "FORBIDDEN_CONTENT"), ("error", "Security Policy Violation")] := by
  decide

/-- C3: a POST body containing a configured forbidden keyword as a
case-insensitive substring is answered with status 403 and the fixed
rejection JSON object, the upstream stage is never invoked (the result
does not depend on it), and no redaction signal is produced. -/
theorem c3_keyword_rejection (kws : List String) (en : Bool) (next : Handler)
    (r : Req) (ps : PipeState) (b : String)
    (hm : r.method = "POST") (hb : r.body = some b)
    (hw : ps.resp.wroteHeader = false)
    (hkw : govBlockSignal kws b = true) :
    (governanceMW kws en next r ps).resp.wireStatus = 403 ∧
    (governanceMW kws en next r ps).resp.bodyChunks =
      ps.resp.bodyChunks ++ [RespChunk.jsonMap
        [("code", "FORBIDDEN_CONTENT"), ("error", "Security Policy Violation")]] ∧
    (∀ next' : Handler, governanceMW kws en next' r ps = governanceMW kws en next r ps) ∧
    (governanceMW kws en next r ps).ctxRedacted = ps.ctxRedacted ∧
    (governanceMW kws en next r ps).queue = ps.queue := by
  have hkw' : (kws.any fun kw => containsCI b kw) = true := hkw
  refine ⟨?_, ?_, ?_, ?_, ?_⟩ <;>
    simp [governanceMW, hm, hb, hkw', setHeader, writeHeaderOp, writeChunk, hw,
      rejectionFields_eq]

/-- Witness for C3 at a concrete blocked request. -/
theorem c3_keyword_rejection_witness :
    (governanceMW ["secret_key"] true stubHandler
      { method := "POST", path := "/v1/chat", headers := [],
        body := some "use my SECRET_key now" }
      (freshState [])).resp.wireStatus = 403 :=
  (c3_keyword_rejection ["secret_key"] true stubHandler _ _ "use my SECRET_key now"
    rfl rfl rfl (by decide)).1

/-! ## C1 — what the audit trail captures -/

/-- C1 (amended): with the `setupRoutes` composition the audit stage
wraps the governance stage, so the `Interaction` captures the original
pre-redaction request body, not the post-redaction one. -/
theorem c1_amended_preredaction (kws : List String) (upstream : Handler)
    (r : Req) (ps : PipeState) (b : String) (hb : r.body = some b) :
    (auditObserve (governanceMW kws true upstream) r ps).2.requestBody = b := by
  simp [auditObserve, hb]

/-- Witness for the amended C1 at a concrete request. -/
theorem c1_amended_preredaction_witness :
    (auditObserve (governanceMW [] true stubHandler)
      { method := "POST", path := "/v1/chat", headers := [],
        body := some "reach me at a@b.co" }
      (freshState [])).2.requestBody = "reach me at a@b.co" :=
  c1_amended_preredaction [] stubHandler _ _ "reach me at a@b.co" rfl

/-- Counterexample to C1 as stated: on a body whose e-mail token is
redacted from the forwarded request (the redaction signal is set), the
captured request body is not the post-redaction body — it is the raw
body containing the PII token. -/
theorem c1_counterexample :
    (auditObserve (governanceMW [] true stubHandler)
      { method := "POST", path := "/v1/chat", headers := [],
        body := some "reach me at a@b.co" }
      (freshState [])).2.requestBody ≠ redactStr "reach me at a@b.co" ∧
    redactStr "reach me at a@b.co" ≠ "reach me at a@b.co" ∧
    (auditObserve (governanceMW [] true stubHandler)
      { method := "POST", path := "/v1/chat", headers := [],
        body := some "reach me at a@b.co" }
      (freshState [])).2.isRedacted = true := by
  decide

/-! ## C2 — identity, block and redaction signals on the Interaction -/

/-- C2: through the audited governance pipeline, the captured
`Interaction` carries the identity-header user (anonymous sentinel
when absent), `isBlocked`/`isRedacted` equal to the governance keyword
and redaction signals, and the internal `X-Vantage-Blocked` marker is
consumed and stripped: it is neither in the final header map nor on
the wire. -/
theorem c2_audit_signals (kws : List String) (en : Bool) (next : Handler)
    (r : Req) (ps : PipeState) (b : String)
    (hm : r.method = "POST") (hb : r.body = some b)
    (hctx : ps.ctxRedacted = none)
    (hhm : alookup ps.resp.headerMap "X-Vantage-Blocked" = none)
    (hwire : alookup ps.resp.wireHeaders "X-Vantage-Blocked" = none)
    (hwh : ps.resp.wroteHeader = false)
    (hnextCtx : ∀ r' ps', (next r' ps').ctxRedacted = ps'.ctxRedacted)
    (hnextHm : ∀ r' ps', alookup (next r' ps').resp.headerMap "X-Vantage-Blocked" =
      alookup ps'.resp.headerMap "X-Vantage-Blocked")
    (hnextWire : ∀ r' ps', alookup (next r' ps').resp.wireHeaders "X-Vantage-Blocked" =
      alookup ps'.resp.wireHeaders "X-Vantage-Blocked") :
    (auditObserve (governanceMW kws en next) r ps).2.userID =
      (if (alookup r.headers "X-User-ID").getD "" = "" then "anonymous"
       else (alookup r.headers "X-User-ID").getD "") ∧
    (auditObserve (governanceMW kws en next) r ps).2.isBlocked = govBlockSignal kws b ∧
    (auditObserve (governanceMW kws en next) r ps).2.isRedacted =
      (!govBlockSignal kws b && govRedactSignal en b) ∧
    alookup (auditObserve (governanceMW kws en next) r ps).1.resp.headerMap
      "X-Vantage-Blocked" = none ∧
    alookup (auditObserve (governanceMW kws en next) r ps).1.resp.wireHeaders
      "X-Vantage-Blocked" = none := by
  cases hB : kws.any (fun kw => containsCI b kw) with
  | true =>
    have hpipe : governanceMW kws en next r ps =
        { ps with resp := setHeader (writeChunk (writeHeaderOp
            (setHeader ps.resp "Content-Type" "application/json") 403)
            (RespChunk.jsonMap rejectionFields)) "X-Vantage-Blocked" "true" } := by
      simp [governanceMW, hm, hb, hB]
    refine ⟨rfl, ?_, ?_, ?_, ?_⟩
    · simp [auditObserve, hpipe, govBlockSignal, hB, setHeader, alookup_setPair_self]
    · simp [auditObserve, hpipe, govBlockSignal, hB, hctx]
    · simp [auditObserve, alookup_removeKey_self]
    · simp [auditObserve, hpipe, setHeader, writeChunk, writeHeaderOp, hwh]
      rw [alookup_setPair_ne _ _ _ _ (by decide)]
      exact hhm
  | false =>
    have hpipe : governanceMW kws en next r ps =
        next { r with body := some (if en then redactStr b else b) }
          { ps with ctxRedacted := some (en && decide (redactStr b ≠ b)) } := by
      simp [governanceMW, hm, hb, hB]
    refine ⟨rfl, ?_, ?_, ?_, ?_⟩
    · simp [auditObserve, hpipe, govBlockSignal, hB, hnextHm, hhm]
    · simp [auditObserve, hpipe, govBlockSignal, govRedactSignal, hB, hnextCtx]
    · simp [auditObserve, alookup_removeKey_self]
    · simp [auditObserve, hpipe, hnextWire, hwire]

/-- Witness for C2 at a concrete identified, redacted request. -/
theorem c2_audit_signals_witness :
    (auditObserve (governanceMW ["drop"] true stubHandler)
      { method := "POST", path := "/v1/chat", headers := [("X-User-ID", "alice")],
        body := some "mail a@b.co" }
      (freshState [])).2.userID =
      (if (alookup [("X-User-ID", "alice")] "X-User-ID").getD "" = "" then "anonymous"
       else (alookup [("X-User-ID", "alice")] "X-User-ID").getD "") ∧
    (auditObserve (governanceMW ["drop"] true stubHandler)
      { method := "POST", path := "/v1/chat", headers := [("X-User-ID", "alice")],
        body := some "mail a@b.co" }
      (freshState [])).2.isBlocked = govBlockSignal ["drop"] "mail a@b.co" ∧
    (auditObserve (governanceMW ["drop"] true stubHandler)
      { method := "POST", path := "/v1/chat", headers := [("X-User-ID", "alice")],
        body := some "mail a@b.co" }
      (freshState [])).2.isRedacted =
      (!govBlockSignal ["drop"] "mail a@b.co" && govRedactSignal true "mail a@b.co") ∧
    alookup (auditObserve (governanceMW ["drop"] true stubHandler)
      { method := "POST", path := "/v1/chat", headers := [("X-User-ID", "alice")],
        body := some "mail a@b.co" }
      (freshState [])).1.resp.headerMap "X-Vantage-Blocked" = none ∧
    alookup (auditObserve (governanceMW ["drop"] true stubHandler)
      { method := "POST", path := "/v1/chat", headers := [("X-User-ID", "alice")],
        body := some "mail a@b.co" }
      (freshState [])).1.resp.wireHeaders "X-Vantage-Blocked" = none :=
  c2_audit_signals ["drop"] true stubHandler _ _ "mail a@b.co" rfl rfl rfl rfl rfl rfl
    (fun _ _ => rfl) (fun _ _ => rfl) (fun _ _ => rfl)

/-! ## C4 — token extraction sums both nested shapes -/

/-- C4 (amended): for a 200 response on a `/chat` path whose parsed
body has a `meta` object, the extracted token count is the sum over
BOTH nested shapes — `billed_units` and `tokens` both contribute when
both are present — and on the spec's `billed_units`-only example the
count is 15. -/
theorem c4_amended_double_count (path : String) (fields m : List (String × Json))
    (hp : strContains path "/chat" = true)
    (hmeta : alookup fields "meta" = some (Json.obj m)) :
    extractTokens 200 path (some (Json.obj fields)) =
      sumShape m "billed_units" + sumShape m "tokens" ∧
    extractTokens 200 path (some billedOnlyBody) = 15 := by
  constructor
  · simp [extractTokens, hp, hmeta]
  · simp only [extractTokens, hp, and_true]
    rfl

/-- Witness for the amended C4 at the concrete both-shapes body. -/
theorem c4_amended_double_count_witness :
    extractTokens 200 "/v1/chat" (some (Json.obj [("meta", Json.obj
      [("billed_units", Json.obj
          [("input_tokens", Json.num 10), ("output_tokens", Json.num 5)]),
       ("tokens", Json.obj
          [("input_tokens", Json.num 1), ("output_tokens", Json.num 2)])])])) =
      sumShape
        [("billed_units", Json.obj
            [("input_tokens", Json.num 10), ("output_tokens", Json.num 5)]),
         ("tokens", Json.obj
            [("input_tokens", Json.num 1), ("output_tokens", Json.num 2)])]
        "billed_units" +
      sumShape
        [("billed_units", Json.obj
            [("input_tokens", Json.num 10), ("output_tokens", Json.num 5)]),
         ("tokens", Json.obj
            [("input_tokens", Json.num 1), ("output_tokens", Json.num 2)])]
        "tokens" :=
  (c4_amended_double_count "/v1/chat"
    [("meta", Json.obj
      [("billed_units", Json.obj
          [("input_tokens", Json.num 10), ("output_tokens", Json.num 5)]),
       ("tokens", Json.obj
          [("input_tokens", Json.num 1), ("output_tokens", Json.num 2)])])]
    [("billed_units", Json.obj
        [("input_tokens", Json.num 10), ("output_tokens", Json.num 5)]),
     ("tokens", Json.obj
        [("input_tokens", Json.num 1), ("output_tokens", Json.num 2)])]
    (by decide) rfl).1

/-- Counterexample to C4 as stated: with both shapes present the code
sums both (10+5 from `billed_units` plus 1+2 from `tokens`, so 18),
not only the first checked shape (which would give 15). -/
theorem c4_counterexample :
    extractTokens 200 "/v1/chat" (some bothShapesBody) = 18 ∧
    extractTokens 200 "/v1/chat" (some bothShapesBody) ≠ 15 := by
  decide

/-! ## C6 — fail-open safety scoring -/

/-- C6: safety scoring fails open.  An unparseable body, or an absent
or empty message, records score 1 without any classification call;
with a call made, network or decode failure (and the degenerate empty
classification list) records 1; otherwise the confidence of the
`safe` label is recorded, or 1 for a `safe` prediction without a
`safe` label, and 0 for any other prediction. -/
theorem c6_fail_open :
    (∀ f, performSafetyAudit none f = (1, false)) ∧
    (∀ b f, decodeChatMessage b = none → performSafetyAudit b f = (1, false)) ∧
    (∀ b f, decodeChatMessage b = some "" → performSafetyAudit b f = (1, false)) ∧
    (∀ b f msg, decodeChatMessage b = some msg → msg ≠ "" → f msg = none →
      performSafetyAudit b f = (1, true)) ∧
    (∀ b f msg, decodeChatMessage b = some msg → msg ≠ "" → f msg = some [] →
      performSafetyAudit b f = (1, true)) ∧
    (∀ b f msg c rest conf, decodeChatMessage b = some msg → msg ≠ "" →
      f msg = some (c :: rest) → alookup c.labels "safe" = some conf →
      performSafetyAudit b f = (conf, true)) ∧
    (∀ b f msg c rest, decodeChatMessage b = some msg → msg ≠ "" →
      f msg = some (c :: rest) → alookup c.labels "safe" = none →
      c.prediction = "safe" → performSafetyAudit b f = (1, true)) ∧
    (∀ b f msg c rest, decodeChatMessage b = some msg → msg ≠ "" →
      f msg = some (c :: rest) → alookup c.labels "safe" = none →
      c.prediction ≠ "safe" → performSafetyAudit b f = (0, true)) := by
  refine ⟨?_, ?_, ?_, ?_, ?_, ?_, ?_, ?_⟩
  · intro f
    rfl
  · intro b f h
    simp [performSafetyAudit, h]
  · intro b f h
    simp [performSafetyAudit, h]
  · intro b f msg h1 h2 h3
    simp [performSafetyAudit, h1, h2, h3]
  · intro b f msg h1 h2 h3
    simp [performSafetyAudit, h1, h2, h3]
  · intro b f msg c rest conf h1 h2 h3 h4
    simp [performSafetyAudit, h1, h2, h3, h4]
  · intro b f msg c rest h1 h2 h3 h4 h5
    simp [performSafetyAudit, h1, h2, h3, h4, h5]
  · intro b f msg c rest h1 h2 h3 h4 h5
    simp [performSafetyAudit, h1, h2, h3, h4, h5]

/-- Witness for C6: the spec's example — message `Tell me a joke`,
classifier returns a `safe` confidence of 0.97 — records score
97/100. -/
theorem c6_fail_open_witness :
    performSafetyAudit (some (Json.obj [("message", Json.str "Tell me a joke")]))
      safeClassifier = (97 / 100, true) :=
  c6_fail_open.2.2.2.2.2.1 (some (Json.obj [("message", Json.str "Tell me a joke")]))
    safeClassifier "Tell me a joke"
    { labels := [("safe", 97 / 100)], prediction := "safe" } [] (97 / 100)
    rfl (by decide) rfl rfl

/-! ## C10 — listing contract -/

theorem sorted_getLogs_take (l : List InteractionRecord) (n : Nat)
    (h : List.Sorted tsDesc l) : List.Sorted tsDesc (l.take n) :=
  List.Pairwise.sublist (List.take_sublist n l) h

/-- C10 (amended): for a nonnegative limit the listing returns at most
`limit` records, ordered by timestamp descending, forming a prefix of
the full descending-ordered table; the handler defaults the limit to
50 exactly when the parsed query parameter is zero (a negative
parameter is passed through, where the SQL `LIMIT` means no limit). -/
theorem c10_amended_listing (table : List InteractionRecord) (lim : Int)
    (h : 0 ≤ lim) :
    (getLogs table lim).length ≤ lim.toNat ∧
    List.Sorted tsDesc (getLogs table lim) ∧
    (∃ rest, getLogs table lim ++ rest = List.insertionSort tsDesc table) ∧
    effectiveLimit 0 = 50 := by
  have hnl : ¬ lim < 0 := not_lt.mpr h
  refine ⟨?_, ?_, ?_, rfl⟩
  · simp [getLogs, hnl, List.length_take]
  · simp only [getLogs, hnl, if_false]
    exact sorted_getLogs_take _ _ (List.sorted_insertionSort tsDesc table)
  · exact ⟨(List.insertionSort tsDesc table).drop lim.toNat,
      by simp [getLogs, hnl, List.take_append_drop]⟩

/-- Witness for the amended C10 at a concrete store and limit. -/
theorem c10_amended_listing_witness :
    (getLogs [sampleRecord] 2).length ≤ (2 : Int).toNat :=
  (c10_amended_listing [sampleRecord] 2 (by decide)).1

/-- Counterexample to C10 as stated: the handler does not default a
negative parameter, and a negative SQL `LIMIT` returns all records, so
a call with limit `-1` returns more than `-1` records. -/
theorem c10_counterexample :
    effectiveLimit (-1) = -1 ∧
    (getLogs [sampleRecord] (-1)).length = 1 ∧
    ¬ ((1 : Int) ≤ -1) := by
  refine ⟨rfl, rfl, by decide⟩

/-- Witness for C9 at a concrete GET request and a concrete bodyless
POST. -/
theorem c9_frame_witness :
    governanceMW ["drop"] true stubHandler
      { method := "GET", path := "/health", headers := [], body := some "x" }
      (freshState []) =
      stubHandler
        { method := "GET", path := "/health", headers := [], body := some "x" }
        (freshState []) ∧
    governanceMW ["drop"] true stubHandler
      { method := "POST", path := "/v1/chat", headers := [], body := none }
      (freshState []) =
      stubHandler
        { method := "POST", path := "/v1/chat", headers := [], body := none }
        (freshState []) := by
  constructor
  · exact c9_frame ["drop"] true stubHandler _ _ (Or.inl (by decide))
  · exact c9_frame ["drop"] true stubHandler _ _ (Or.inr rfl)

/-! ## Replacement scanner: unfolding equations -/

theorem replaceAllF_congr (tm : List Char → Option Nat) (m : List Char) :
    ∀ fuel fuel' s, s.length ≤ fuel → s.length ≤ fuel' →
      replaceAllF tm m fuel s = replaceAllF tm m fuel' s := by
  intro fuel
  induction fuel with
  | zero =>
    intro fuel' s hs _
    have : s = [] := List.length_eq_zero.mp (Nat.le_zero.mp hs)
    subst this
    cases fuel' <;> rfl
  | succ f ih =>
    intro fuel' s hs hs'
    cases s with
    | nil => cases fuel' <;> rfl
    | cons c rest =>
      simp only [List.length_cons] at hs hs'
      cases fuel' with
      | zero => exact absurd hs' (by omega)
      | succ f' =>
        cases htm : tm (c :: rest) with
        | some n =>
          have h1 : 1 ≤ max n 1 := le_max_right n 1
          have hlen : (List.drop (max n 1) (c :: rest)).length ≤ f := by
            rw [List.length_drop, List.length_cons]
            omega
          have hlen' : (List.drop (max n 1) (c :: rest)).length ≤ f' := by
            rw [List.length_drop, List.length_cons]
            omega
          simp only [replaceAllF, htm]
          rw [ih f' _ hlen hlen']
        | none =>
          have hr : rest.length ≤ f := by omega
          have hr' : rest.length ≤ f' := by omega
          simp only [replaceAllF, htm]
          rw [ih f' rest hr hr']

theorem replaceAll_cons_some (tm : List Char → Option Nat) (m : List Char)
    (c : Char) (rest : List Char) (n : Nat) (htm : tm (c :: rest) = some n) :
    replaceAll tm m (c :: rest) =
      m ++ replaceAll tm m (List.drop (max n 1) (c :: rest)) := by
  unfold replaceAll
  simp only [List.length_cons, replaceAllF, htm]
  congr 1
  apply replaceAllF_congr
  · simp only [List.length_drop, List.length_cons]
    have : 1 ≤ max n 1 := le_max_right n 1
    omega
  · exact le_rfl

theorem replaceAll_cons_none (tm : List Char → Option Nat) (m : List Char)
    (c : Char) (rest : List Char) (htm : tm (c :: rest) = none) :
    replaceAll tm m (c :: rest) = c :: replaceAll tm m rest := by
  unfold replaceAll
  simp only [List.length_cons, replaceAllF, htm]

/-! ## takeWhile and dropWhile helpers -/

theorem takeWhile_cut (P : Char → Bool) (u : List Char) (c : Char) (w : List Char)
    (h : P c = false) : List.takeWhile P (u ++ c :: w) = List.takeWhile P u := by
  induction u with
  | nil => simp [List.takeWhile_cons, h]
  | cons a rest ih =>
    rw [List.cons_append, List.takeWhile_cons, List.takeWhile_cons]
    cases ha : P a
    · rfl
    · rw [ih]

theorem dropWhile_cut (P : Char → Bool) (u : List Char) (c : Char) (w : List Char)
    (h : P c = false) : List.dropWhile P (u ++ c :: w) = List.dropWhile P u ++ c :: w := by
  induction u with
  | nil => simp [List.dropWhile_cons, h]
  | cons a rest ih =>
    rw [List.cons_append, List.dropWhile_cons, List.dropWhile_cons]
    cases ha : P a
    · simp
    · simpa using ih

theorem takeWhile_all_append (P : Char → Bool) (u v : List Char)
    (h : List.takeWhile P u = u) :
    List.takeWhile P (u ++ v) = u ++ List.takeWhile P v := by
  induction u with
  | nil => simp
  | cons a rest ih =>
    rw [List.takeWhile_cons] at h
    cases ha : P a
    · rw [ha] at h
      simp at h
    · rw [ha] at h
      simp only [if_pos rfl] at h
      have hrest : List.takeWhile P rest = rest := by
        simpa using h
      rw [List.cons_append, List.takeWhile_cons, ha]
      simp [ih hrest]

theorem takeWhile_stable (P : Char → Bool) (u v : List Char)
    (h : List.takeWhile P u ≠ u) :
    List.takeWhile P (u ++ v) = List.takeWhile P u := by
  induction u with
  | nil => simp at h
  | cons a rest ih =>
    rw [List.cons_append, List.takeWhile_cons, List.takeWhile_cons]
    cases ha : P a
    · rfl
    · rw [List.takeWhile_cons, ha] at h
      simp only [if_pos rfl] at h
      have hrest : List.takeWhile P rest ≠ rest := by
        intro hc
        rw [hc] at h
        exact h rfl
      rw [ih hrest]

theorem dropWhile_stable (P : Char → Bool) (u v : List Char)
    (h : List.takeWhile P u ≠ u) :
    List.dropWhile P (u ++ v) = List.dropWhile P u ++ v := by
  induction u with
  | nil => simp at h
  | cons a rest ih =>
    rw [List.cons_append, List.dropWhile_cons, List.dropWhile_cons]
    cases ha : P a
    · rfl
    · rw [List.takeWhile_cons, ha] at h
      simp only [if_pos rfl] at h
      have hrest : List.takeWhile P rest ≠ rest := by
        intro hc
        rw [hc] at h
        exact h rfl
      simp [ih hrest]

theorem takeWhile_length_le (P : Char → Bool) (l : List Char) :
    (List.takeWhile P l).length ≤ l.length := by
  induction l with
  | nil => simp
  | cons a rest ih =>
    rw [List.takeWhile_cons]
    cases ha : P a
    · simp
    · simpa using Nat.succ_le_succ ih

theorem takeWhile_getElem? (P : Char → Bool) (l : List Char) (i : Nat)
    (h : i < (List.takeWhile P l).length) :
    (List.takeWhile P l)[i]? = l[i]? := by
  conv_rhs => rw [← List.takeWhile_append_dropWhile P l]
  rw [List.getElem?_append_left h]

theorem takeWhile_sat (P : Char → Bool) (l : List Char) (i : Nat) (a : Char)
    (h : (List.takeWhile P l)[i]? = some a) : P a = true :=
  List.mem_takeWhile_imp (List.getElem?_mem h)

theorem takeWhile_keep (P : Char → Bool) :
    ∀ (l : List Char) (k : Nat),
      (∀ i, i < k → ∃ a, l[i]? = some a ∧ P a = true) →
      k ≤ (List.takeWhile P l).length := by
  intro l
  induction l with
  | nil =>
    intro k hk
    cases k with
    | zero => simp
    | succ j =>
      obtain ⟨a, ha, _⟩ := hk 0 (Nat.succ_pos j)
      simp at ha
  | cons c rest ih =>
    intro k hk
    cases k with
    | zero => simp
    | succ j =>
      obtain ⟨a, ha, hPa⟩ := hk 0 (Nat.succ_pos j)
      simp only [List.getElem?_cons_zero, Option.some_inj] at ha
      subst ha
      rw [List.takeWhile_cons, hPa]
      simp only [if_true, List.length_cons]
      refine Nat.succ_le_succ (ih j ?_)
      intro i hi
      have := hk (i + 1) (Nat.succ_lt_succ hi)
      simpa using this

/-! ## Character-class inclusions -/

theorem isDomain_isLocal (c : Char) (h : isDomainChar c = true) : isLocalChar c = true := by
  simp only [isDomainChar, Bool.or_eq_true, decide_eq_true_eq] at h
  simp only [isLocalChar, Bool.or_eq_true, decide_eq_true_eq]
  tauto

theorem isAlpha_isDomain (c : Char) (h : isAlphaChar c = true) : isDomainChar c = true := by
  simp [isDomainChar, h]

theorem local_emailAlpha (c : Char) (h : isLocalChar c = true) : emailAlpha c = true := by
  simp [emailAlpha, h]

theorem emailAlpha_not_local (c : Char) (hA : emailAlpha c = false) :
    isLocalChar c = false := by
  simp only [emailAlpha, Bool.or_eq_false_iff] at hA
  exact hA.1

theorem emailAlpha_not_at (c : Char) (hA : emailAlpha c = false) : c ≠ '@' := by
  simp only [emailAlpha, Bool.or_eq_false_iff, decide_eq_false_iff_not] at hA
  exact hA.2

theorem emailAlpha_not_domain (c : Char) (hA : emailAlpha c = false) :
    isDomainChar c = false := by
  cases hd : isDomainChar c
  · rfl
  · rw [local_emailAlpha c (isDomain_isLocal c hd)] at hA
    cases hA

theorem emailAlpha_not_alpha (c : Char) (hA : emailAlpha c = false) :
    isAlphaChar c = false := by
  cases hd : isAlphaChar c
  · rfl
  · rw [local_emailAlpha c (isDomain_isLocal c (isAlpha_isDomain c hd))] at hA
    cases hA

/-! ## Domain backtracking search -/

theorem dotSearch_sound (d : List Char) :
    ∀ b w, dotSearch d b = some w →
      ∃ j, j + 1 < d.length ∧ d[j + 1]? = some '.' ∧
        2 ≤ alphaRunLen (d.drop (j + 2)) ∧
        w = j + 2 + alphaRunLen (d.drop (j + 2)) := by
  intro b
  induction b with
  | zero =>
    intro w h
    simp [dotSearch] at h
  | succ k ih =>
    intro w h
    by_cases hc : d[k + 1]? = some '.' ∧ 2 ≤ alphaRunLen (d.drop (k + 2))
    · rw [dotSearch, if_pos hc] at h
      have hlt : k + 1 < d.length := by
        by_contra hno
        push_neg at hno
        rw [List.getElem?_eq_none hno] at hc
        exact Option.noConfusion hc.1
      exact ⟨k, hlt, hc.1, hc.2, (Option.some_inj.mp h).symm⟩
    · rw [dotSearch, if_neg hc] at h
      exact ih w h

theorem dotSearch_le (d : List Char) (b w : Nat) (h : dotSearch d b = some w) :
    1 ≤ w ∧ w ≤ d.length := by
  obtain ⟨j, hlt, _, hrun, hw⟩ := dotSearch_sound d b w h
  have hm : alphaRunLen (d.drop (j + 2)) ≤ d.length - (j + 2) := by
    have h1 := takeWhile_length_le isAlphaChar (d.drop (j + 2))
    rw [List.length_drop] at h1
    exact h1
  omega

theorem dotSearch_complete (d : List Char) :
    ∀ b j, j + 1 ≤ b → d[j + 1]? = some '.' →
      2 ≤ alphaRunLen (d.drop (j + 2)) →
      ∃ w, dotSearch d b = some w := by
  intro b
  induction b with
  | zero =>
    intro j hj
    omega
  | succ k ih =>
    intro j hj hdot hrun
    by_cases hc : d[k + 1]? = some '.' ∧ 2 ≤ alphaRunLen (d.drop (k + 2))
    · exact ⟨_, by rw [dotSearch, if_pos hc]⟩
    · have hjk : j + 1 ≤ k := by
        rcases Nat.lt_or_ge (j + 1) (k + 1) with hlt | hge
        · omega
        · have hjj : j = k := by omega
          subst hjj
          exact absurd ⟨hdot, hrun⟩ hc
      obtain ⟨w, hw⟩ := ih j hjk hdot hrun
      exact ⟨w, by rw [dotSearch, if_neg hc, hw]⟩

/-! ## E-mail matcher: positivity and match characters -/

theorem tryEmail_pos : PosP tryEmail := by
  intro s n h
  unfold tryEmail at h
  split at h
  · split at h
    · exact Option.noConfusion h
    · obtain ⟨w, _, hn⟩ := Option.map_eq_some'.mp h
      omega
  · exact Option.noConfusion h

theorem tryEmail_chars : CharsP emailAlpha tryEmail := by
  intro s n h i hi
  unfold tryEmail at h
  split at h
  case h_2 => exact Option.noConfusion h
  case h_1 s2 heq =>
    split at h
    case isTrue => exact Option.noConfusion h
    case isFalse hl0 =>
      obtain ⟨w, hw, hn⟩ := Option.map_eq_some'.mp h
      have hwd := dotSearch_le _ _ _ hw
      have hs : s = List.takeWhile isLocalChar s ++ '@' :: s2 := by
        conv_lhs => rw [← List.takeWhile_append_dropWhile isLocalChar s]
        rw [heq]
      set l := List.takeWhile isLocalChar s with hldef
      set d := List.takeWhile isDomainChar s2 with hddef
      rcases Nat.lt_trichotomy i l.length with hil | hil | hil
      · -- inside the local-part run
        have hsome : l[i]? = some l[i] := List.getElem?_eq_getElem hil
        refine ⟨l[i], ?_, ?_⟩
        · rw [hs, List.getElem?_append_left hil]
          exact hsome
        · exact local_emailAlpha _ (takeWhile_sat isLocalChar s i _ hsome)
      · -- the @ sign
        refine ⟨'@', ?_, by decide⟩
        rw [hs, List.getElem?_append_right (le_of_eq hil.symm), hil]
        simp
      · -- inside the domain part
        have hidx : i - l.length - 1 < d.length := by omega
        have hsome : d[i - l.length - 1]? = some d[i - l.length - 1] :=
          List.getElem?_eq_getElem hidx
        refine ⟨d[i - l.length - 1], ?_, ?_⟩
        · rw [hs, List.getElem?_append_right (by omega : l.length ≤ i)]
          obtain ⟨m, hm⟩ : ∃ m, i - l.length = m + 1 := ⟨i - l.length - 1, by omega⟩
          have hm2 : i - l.length - 1 = m := by omega
          have hstep : ('@' :: s2)[i - l.length]? = d[i - l.length - 1]? := by
            rw [hm, List.getElem?_cons_succ]
            simp only [Nat.add_sub_cancel]
            exact (takeWhile_getElem? isDomainChar s2 m
              (by simp only [← hddef]; omega)).symm
          rw [hstep]
          exact hsome
        · exact local_emailAlpha _ (isDomain_isLocal _
            (takeWhile_sat isDomainChar s2 _ _ hsome))

/-! ## More run helpers -/

theorem takeWhile_ne_length (P : Char → Bool) (u : List Char)
    (h : List.takeWhile P u ≠ u) : (List.takeWhile P u).length < u.length := by
  rcases Nat.lt_or_ge (List.takeWhile P u).length u.length with hlt | hge
  · exact hlt
  · exfalso
    apply h
    have hle := takeWhile_length_le P u
    have hdrop : (List.dropWhile P u).length = 0 := by
      have := List.takeWhile_append_dropWhile P u
      have hlen := congrArg List.length this
      rw [List.length_append] at hlen
      omega
    have hdnil : List.dropWhile P u = [] := List.length_eq_zero.mp hdrop
    have := List.takeWhile_append_dropWhile P u
    rw [hdnil, List.append_nil] at this
    exact this

theorem dropWhile_eq_nil_takeWhile (P : Char → Bool) (u : List Char)
    (h : List.dropWhile P u = []) : List.takeWhile P u = u := by
  have := List.takeWhile_append_dropWhile P u
  rw [h, List.append_nil] at this
  exact this

theorem alphaRunLen_two_elim (t : List Char) (h : 2 ≤ alphaRunLen t) :
    (∃ a, t[0]? = some a ∧ isAlphaChar a = true) ∧
    (∃ b, t[1]? = some b ∧ isAlphaChar b = true) := by
  unfold alphaRunLen at h
  constructor
  · have h0 : (0 : Nat) < (List.takeWhile isAlphaChar t).length := by omega
    refine ⟨(List.takeWhile isAlphaChar t)[0], ?_, ?_⟩
    · rw [← takeWhile_getElem? isAlphaChar t 0 h0]
      exact List.getElem?_eq_getElem h0
    · exact takeWhile_sat isAlphaChar t 0 _ (List.getElem?_eq_getElem h0)
  · have h1 : (1 : Nat) < (List.takeWhile isAlphaChar t).length := by omega
    refine ⟨(List.takeWhile isAlphaChar t)[1], ?_, ?_⟩
    · rw [← takeWhile_getElem? isAlphaChar t 1 h1]
      exact List.getElem?_eq_getElem h1
    · exact takeWhile_sat isAlphaChar t 1 _ (List.getElem?_eq_getElem h1)

theorem alphaRunLen_two_intro (t : List Char) (a b : Char)
    (h0 : t[0]? = some a) (ha : isAlphaChar a = true)
    (h1 : t[1]? = some b) (hb : isAlphaChar b = true) : 2 ≤ alphaRunLen t := by
  unfold alphaRunLen
  apply takeWhile_keep
  intro i hi
  interval_cases i
  · exact ⟨a, h0, ha⟩
  · exact ⟨b, h1, hb⟩

/-! ## E-mail matcher: cut and extension -/

theorem tryEmail_cut : CutP emailAlpha tryEmail := by
  intro u c w hA
  have hL : isLocalChar c = false := emailAlpha_not_local c hA
  have hD : isDomainChar c = false := emailAlpha_not_domain c hA
  have hAt : c ≠ '@' := emailAlpha_not_at c hA
  have htw : List.takeWhile isLocalChar (u ++ c :: w) = List.takeWhile isLocalChar u :=
    takeWhile_cut _ _ _ _ hL
  have htw' : List.takeWhile isLocalChar (u ++ [c]) = List.takeWhile isLocalChar u :=
    takeWhile_cut isLocalChar u c [] hL
  have hdw : List.dropWhile isLocalChar (u ++ c :: w) =
      List.dropWhile isLocalChar u ++ c :: w := dropWhile_cut _ _ _ _ hL
  have hdw' : List.dropWhile isLocalChar (u ++ [c]) =
      List.dropWhile isLocalChar u ++ [c] := dropWhile_cut isLocalChar u c [] hL
  unfold tryEmail
  simp only [htw, htw', hdw, hdw']
  cases he : List.dropWhile isLocalChar u with
  | nil =>
    simp only [List.nil_append]
    split
    · rename_i s2 heq
      injection heq with h1 _
      exact absurd h1 hAt
    · split
      · rename_i s2 heq
        injection heq with h1 _
        exact absurd h1 hAt
      · rfl
  | cons x e' =>
    simp only [List.cons_append]
    by_cases hx : x = '@'
    · subst hx
      show (if (List.takeWhile isLocalChar u).length = 0 then none
            else Option.map (fun w_1 => (List.takeWhile isLocalChar u).length + 1 + w_1)
              (dotSearch (List.takeWhile isDomainChar (e' ++ c :: w))
                (List.takeWhile isDomainChar (e' ++ c :: w)).length)) =
          (if (List.takeWhile isLocalChar u).length = 0 then none
            else Option.map (fun w_1 => (List.takeWhile isLocalChar u).length + 1 + w_1)
              (dotSearch (List.takeWhile isDomainChar (e' ++ [c]))
                (List.takeWhile isDomainChar (e' ++ [c])).length))
      rw [takeWhile_cut isDomainChar e' c w hD, takeWhile_cut isDomainChar e' c [] hD]
    · split
      · rename_i s2 heq
        injection heq with h1 _
        exact absurd h1 hx
      · split
        · rename_i s2 heq
          injection heq with h1 _
          exact absurd h1 hx
        · rfl

theorem tryEmail_ext : ExtP tryEmail := by
  intro u v v' n h hn
  unfold tryEmail at h
  split at h
  case h_2 => exact Option.noConfusion h
  case h_1 s2 heq =>
    split at h
    case isTrue => exact Option.noConfusion h
    case isFalse hl0 =>
      obtain ⟨w, hw, hneq⟩ := Option.map_eq_some'.mp h
      by_cases hall : List.takeWhile isLocalChar u = u
      · exfalso
        have hLfull : List.takeWhile isLocalChar (u ++ v) =
            u ++ List.takeWhile isLocalChar v := takeWhile_all_append _ _ _ hall
        have : u.length ≤ (List.takeWhile isLocalChar (u ++ v)).length := by
          rw [hLfull, List.length_append]
          omega
        omega
      · have hLu : List.takeWhile isLocalChar (u ++ v) = List.takeWhile isLocalChar u :=
          takeWhile_stable _ _ _ hall
        have hLlt : (List.takeWhile isLocalChar u).length < u.length :=
          takeWhile_ne_length _ _ hall
        have hdwu : List.dropWhile isLocalChar (u ++ v) =
            List.dropWhile isLocalChar u ++ v := dropWhile_stable _ _ _ hall
        have he_ne : List.dropWhile isLocalChar u ≠ [] := by
          intro h0
          exact hall (dropWhile_eq_nil_takeWhile _ _ h0)
        obtain ⟨x, e', hxe⟩ := List.exists_cons_of_ne_nil he_ne
        rw [hdwu, hxe, List.cons_append] at heq
        injection heq with hxat hs2
        subst hxat
        -- length bookkeeping: u = local run ++ '@' :: e'
        have hulen : u.length = (List.takeWhile isLocalChar u).length + e'.length + 1 := by
          have := congrArg List.length (List.takeWhile_append_dropWhile isLocalChar u)
          rw [List.length_append, hxe] at this
          simp only [List.length_cons] at this
          omega
        have hwe : w ≤ e'.length := by
          rw [hLu] at hneq
          omega
        obtain ⟨j, hj1, hdot, hrun, hweq⟩ :=
          dotSearch_sound _ _ _ hw
        have hwD := dotSearch_le _ _ _ hw
        have hm2 : 2 ≤ alphaRunLen
            ((List.takeWhile isDomainChar s2).drop (j + 2)) := hrun
        -- characters of the domain run below w live in e'
        have hDpos : ∀ i, i < w →
            (List.takeWhile isDomainChar s2)[i]? = e'[i]? := by
          intro i hiw
          rw [takeWhile_getElem? isDomainChar s2 i (by omega)]
          rw [← hs2]
          exact List.getElem?_append_left (by omega)
        have hfirst : ∀ i, i < w → ∃ a, (e' ++ v')[i]? = some a ∧
            isDomainChar a = true := by
          intro i hiw
          have hiD : i < (List.takeWhile isDomainChar s2).length := by omega
          have hsome : (List.takeWhile isDomainChar s2)[i]? =
              some (List.takeWhile isDomainChar s2)[i] := List.getElem?_eq_getElem hiD
          refine ⟨(List.takeWhile isDomainChar s2)[i], ?_, ?_⟩
          · rw [List.getElem?_append_left (by omega : i < e'.length)]
            rw [← hDpos i hiw]
            exact hsome
          · exact takeWhile_sat isDomainChar s2 i _ hsome
        have hD'len : w ≤ (List.takeWhile isDomainChar (e' ++ v')).length :=
          takeWhile_keep _ _ w hfirst
        have hD'eq : ∀ i, i < w →
            (List.takeWhile isDomainChar (e' ++ v'))[i]? =
            (List.takeWhile isDomainChar s2)[i]? := by
          intro i hiw
          rw [takeWhile_getElem? isDomainChar (e' ++ v') i (by omega)]
          rw [List.getElem?_append_left (by omega : i < e'.length)]
          exact (hDpos i hiw).symm
        have hjw : j + 3 < w := by omega
        have hdot' : (List.takeWhile isDomainChar (e' ++ v'))[j + 1]? = some '.' := by
          rw [hD'eq (j + 1) (by omega)]
          exact hdot
        have hrun' : 2 ≤ alphaRunLen
            ((List.takeWhile isDomainChar (e' ++ v')).drop (j + 2)) := by
          obtain ⟨⟨a, ha0, haA⟩, ⟨b, hb0, hbA⟩⟩ := alphaRunLen_two_elim _ hrun
          rw [List.getElem?_drop] at ha0 hb0
          refine alphaRunLen_two_intro _ a b ?_ haA ?_ hbA
          · rw [List.getElem?_drop]
            rw [hD'eq (j + 2 + 0) (by omega)]
            exact ha0
          · rw [List.getElem?_drop]
            rw [hD'eq (j + 2 + 1) (by omega)]
            exact hb0
        obtain ⟨w', hw'⟩ := dotSearch_complete (List.takeWhile isDomainChar (e' ++ v'))
          (List.takeWhile isDomainChar (e' ++ v')).length j (by omega) hdot' hrun'
        -- assemble the match on u ++ v'
        have htwv' : List.takeWhile isLocalChar (u ++ v') = List.takeWhile isLocalChar u :=
          takeWhile_stable _ _ _ hall
        have hdwv' : List.dropWhile isLocalChar (u ++ v') = '@' :: (e' ++ v') := by
          rw [dropWhile_stable _ _ _ hall, hxe, List.cons_append]
        refine ⟨(List.takeWhile isLocalChar (u ++ v')).length + 1 + w', ?_⟩
        unfold tryEmail
        simp only [hdwv', htwv']
        rw [if_neg (by rw [hLu] at hl0; exact hl0)]
        rw [hw']
        rfl

/-! ## Phone matcher: combinator lemmas -/

theorem subset_not (A P : Char → Bool) (sub : ∀ c, P c = true → A c = true) :
    ∀ c, A c = false → P c = false := by
  intro c hA
  cases hP : P c
  · rfl
  · rw [sub c hP] at hA
    exact hA

theorem optionalIf_nil (P : Char → Bool) (k : List Char → Option Nat) :
    optionalIf P k [] = k [] := rfl

theorem optionalIf_cons (P : Char → Bool) (k : List Char → Option Nat)
    (c : Char) (rest : List Char) :
    optionalIf P k (c :: rest) =
      if P c then
        match k rest with
        | some n => some (n + 1)
        | none => k (c :: rest)
      else k (c :: rest) := rfl

theorem consumeIf_pos (P : Char → Bool) (k : List Char → Option Nat) :
    PosP (consumeIf P k) := by
  intro s n h
  cases s with
  | nil => exact Option.noConfusion h
  | cons c rest =>
    simp only [consumeIf] at h
    by_cases hP : P c
    · rw [if_pos hP] at h
      obtain ⟨m, _, hm⟩ := Option.map_eq_some'.mp h
      omega
    · rw [if_neg hP] at h
      exact Option.noConfusion h

theorem consumeIf_cut (A P : Char → Bool) (k : List Char → Option Nat)
    (hPA : ∀ c, A c = false → P c = false) (hk : CutP A k) :
    CutP A (consumeIf P k) := by
  intro u c w hA
  cases u with
  | nil =>
    simp only [List.nil_append]
    simp only [consumeIf]
    rw [if_neg (by rw [hPA c hA]; exact Bool.false_ne_true)]
    rw [if_neg (by rw [hPA c hA]; exact Bool.false_ne_true)]
  | cons x u' =>
    simp only [List.cons_append]
    simp only [consumeIf]
    by_cases hPx : P x
    · rw [if_pos hPx, if_pos hPx, hk u' c w hA]
    · rw [if_neg hPx, if_neg hPx]

theorem consumeIf_chars (A P : Char → Bool) (k : List Char → Option Nat)
    (sub : ∀ c, P c = true → A c = true) (hk : CharsP A k) :
    CharsP A (consumeIf P k) := by
  intro s n h i hi
  cases s with
  | nil => exact Option.noConfusion h
  | cons c rest =>
    simp only [consumeIf] at h
    by_cases hP : P c
    · rw [if_pos hP] at h
      obtain ⟨m, hm, hmn⟩ := Option.map_eq_some'.mp h
      cases i with
      | zero => exact ⟨c, by simp, sub c hP⟩
      | succ i' =>
        obtain ⟨a, ha, haA⟩ := hk rest m hm i' (by omega)
        exact ⟨a, by simpa using ha, haA⟩
    · rw [if_neg hP] at h
      exact Option.noConfusion h

theorem consumeIf_ext (P : Char → Bool) (k : List Char → Option Nat)
    (hk : ExtP k) : ExtP (consumeIf P k) := by
  intro u v v' n h hn
  cases u with
  | nil =>
    have := consumeIf_pos P k _ n h
    simp at hn
    omega
  | cons x u' =>
    simp only [List.cons_append] at h ⊢
    simp only [consumeIf] at h ⊢
    by_cases hPx : P x
    · rw [if_pos hPx] at h
      obtain ⟨m, hm, hmn⟩ := Option.map_eq_some'.mp h
      obtain ⟨m', hm'⟩ := hk u' v v' m hm (by simp at hn; omega)
      rw [if_pos hPx, hm']
      exact ⟨m' + 1, rfl⟩
    · rw [if_neg hPx] at h
      exact Option.noConfusion h

theorem optionalIf_pos (P : Char → Bool) (k : List Char → Option Nat)
    (hk : PosP k) : PosP (optionalIf P k) := by
  intro s n h
  cases s with
  | nil =>
    rw [optionalIf_nil] at h
    exact hk [] n h
  | cons c rest =>
    rw [optionalIf_cons] at h
    by_cases hP : P c
    · rw [if_pos hP] at h
      cases hk2 : k rest with
      | some m =>
        rw [hk2] at h
        simp only [Option.some_inj] at h
        omega
      | none =>
        rw [hk2] at h
        exact hk _ n h
    · rw [if_neg hP] at h
      exact hk _ n h

theorem optionalIf_cut (A P : Char → Bool) (k : List Char → Option Nat)
    (hPA : ∀ c, A c = false → P c = false) (hk : CutP A k) :
    CutP A (optionalIf P k) := by
  intro u c w hA
  cases u with
  | nil =>
    simp only [List.nil_append]
    rw [optionalIf_cons, optionalIf_cons]
    rw [if_neg (by rw [hPA c hA]; exact Bool.false_ne_true)]
    rw [if_neg (by rw [hPA c hA]; exact Bool.false_ne_true)]
    exact hk [] c w hA
  | cons x u' =>
    simp only [List.cons_append]
    rw [optionalIf_cons, optionalIf_cons]
    by_cases hPx : P x
    · rw [if_pos hPx, if_pos hPx, hk u' c w hA]
      have h2 := hk (x :: u') c w hA
      simp only [List.cons_append] at h2
      rw [h2]
    · rw [if_neg hPx, if_neg hPx]
      have h2 := hk (x :: u') c w hA
      simp only [List.cons_append] at h2
      exact h2

theorem optionalIf_chars (A P : Char → Bool) (k : List Char → Option Nat)
    (sub : ∀ c, P c = true → A c = true) (hk : CharsP A k) :
    CharsP A (optionalIf P k) := by
  intro s n h i hi
  cases s with
  | nil =>
    rw [optionalIf_nil] at h
    exact hk [] n h i hi
  | cons c rest =>
    rw [optionalIf_cons] at h
    by_cases hP : P c
    · rw [if_pos hP] at h
      cases hk2 : k rest with
      | some m =>
        rw [hk2] at h
        simp only [Option.some_inj] at h
        cases i with
        | zero => exact ⟨c, by simp, sub c hP⟩
        | succ i' =>
          obtain ⟨a, ha, haA⟩ := hk rest m hk2 i' (by omega)
          exact ⟨a, by simpa using ha, haA⟩
      | none =>
        rw [hk2] at h
        exact hk _ n h i hi
    · rw [if_neg hP] at h
      exact hk _ n h i hi

theorem optionalIf_ext (P : Char → Bool) (k : List Char → Option Nat)
    (hkpos : PosP k) (hk : ExtP k) : ExtP (optionalIf P k) := by
  intro u v v' n h hn
  cases u with
  | nil =>
    have := optionalIf_pos P k hkpos _ n h
    simp at hn
    omega
  | cons x u' =>
    simp only [List.cons_append] at h ⊢
    rw [optionalIf_cons] at h
    rw [optionalIf_cons]
    by_cases hPx : P x
    · rw [if_pos hPx] at h
      rw [if_pos hPx]
      cases hk2 : k (u' ++ v) with
      | some m =>
        rw [hk2] at h
        simp only [Option.some_inj] at h
        obtain ⟨m', hm'⟩ := hk u' v v' m hk2 (by simp at hn; omega)
        rw [hm']
        exact ⟨m' + 1, rfl⟩
      | none =>
        rw [hk2] at h
        have h' : k ((x :: u') ++ v) = some n := by simpa using h
        obtain ⟨m', hm'⟩ := hk (x :: u') v v' n h' (by simpa using hn)
        cases hk3 : k (u' ++ v') with
        | some mm => exact ⟨mm + 1, rfl⟩
        | none => exact ⟨m', by simpa using hm'⟩
    · rw [if_neg hPx] at h
      rw [if_neg hPx]
      have h' : k ((x :: u') ++ v) = some n := by simpa using h
      obtain ⟨m', hm'⟩ := hk (x :: u') v v' n h' (by simpa using hn)
      exact ⟨m', by simpa using hm'⟩

theorem digitsN_pos (n : Nat) (k : List Char → Option Nat) :
    PosP (digitsN (n + 1) k) :=
  consumeIf_pos isDigitChar (digitsN n k)

theorem digitsN_cut (A : Char → Bool) (n : Nat) (k : List Char → Option Nat)
    (hdA : ∀ c, A c = false → isDigitChar c = false) (hk : CutP A k) :
    CutP A (digitsN n k) := by
  induction n with
  | zero => exact hk
  | succ m ih => exact consumeIf_cut A isDigitChar (digitsN m k) hdA ih

theorem digitsN_chars (A : Char → Bool) (n : Nat) (k : List Char → Option Nat)
    (sub : ∀ c, isDigitChar c = true → A c = true) (hk : CharsP A k) :
    CharsP A (digitsN n k) := by
  induction n with
  | zero => exact hk
  | succ m ih => exact consumeIf_chars A isDigitChar (digitsN m k) sub ih

theorem digitsN_ext (n : Nat) (k : List Char → Option Nat) (hk : ExtP k) :
    ExtP (digitsN n k) := by
  induction n with
  | zero => exact hk
  | succ m ih => exact consumeIf_ext isDigitChar (digitsN m k) ih

theorem matchEnd_cut (A : Char → Bool) : CutP A matchEnd := fun _ _ _ _ => rfl

theorem matchEnd_chars (A : Char → Bool) : CharsP A matchEnd := by
  intro s n h i hi
  unfold matchEnd at h
  simp only [Option.some_inj] at h
  omega

theorem matchEnd_ext : ExtP matchEnd := fun _ _ _ _ _ _ => ⟨0, rfl⟩

/-! ## Phone matcher: alphabet inclusions and assembled lemmas -/

theorem phoneAlpha_digit : ∀ c, isDigitChar c = true → phoneAlpha c = true := by
  intro c h
  simp [phoneAlpha, h]

theorem phoneAlpha_sep : ∀ c, isSepChar c = true → phoneAlpha c = true := by
  intro c h
  simp [phoneAlpha, h]

theorem phoneAlpha_space : ∀ c, isSpaceChar c = true → phoneAlpha c = true := by
  intro c h
  apply phoneAlpha_sep
  simp [isSepChar, h]

theorem phoneAlpha_rparen : ∀ c, (fun c => decide (c = ')')) c = true → phoneAlpha c = true := by
  intro c h
  simp only [decide_eq_true_eq] at h
  subst h
  decide

theorem phoneAlpha_lparen : ∀ c, (fun c => decide (c = '(')) c = true → phoneAlpha c = true := by
  intro c h
  simp only [decide_eq_true_eq] at h
  subst h
  decide

theorem phoneAlpha_plus : phoneAlpha '+' = true := by decide

theorem phoneCore_pos : PosP phoneCore := digitsN_pos 2 _

theorem phoneCore_cut : CutP phoneAlpha phoneCore :=
  digitsN_cut _ 3 _ (subset_not _ _ phoneAlpha_digit)
    (optionalIf_cut _ _ _ (subset_not _ _ phoneAlpha_rparen)
      (optionalIf_cut _ _ _ (subset_not _ _ phoneAlpha_sep)
        (digitsN_cut _ 3 _ (subset_not _ _ phoneAlpha_digit)
          (optionalIf_cut _ _ _ (subset_not _ _ phoneAlpha_sep)
            (digitsN_cut _ 4 _ (subset_not _ _ phoneAlpha_digit)
              (matchEnd_cut _))))))

theorem phoneCore_chars : CharsP phoneAlpha phoneCore :=
  digitsN_chars _ 3 _ phoneAlpha_digit
    (optionalIf_chars _ _ _ phoneAlpha_rparen
      (optionalIf_chars _ _ _ phoneAlpha_sep
        (digitsN_chars _ 3 _ phoneAlpha_digit
          (optionalIf_chars _ _ _ phoneAlpha_sep
            (digitsN_chars _ 4 _ phoneAlpha_digit
              (matchEnd_chars _))))))

theorem phoneCore_ext : ExtP phoneCore :=
  digitsN_ext 3 _
    (optionalIf_ext _ _
      (optionalIf_pos _ _ (digitsN_pos 2 _))
      (optionalIf_ext _ _ (digitsN_pos 2 _)
        (digitsN_ext 3 _
          (optionalIf_ext _ _ (digitsN_pos 3 _)
            (digitsN_ext 4 _ matchEnd_ext)))))

theorem phoneNoCc_pos : PosP phoneNoCc :=
  optionalIf_pos _ _ phoneCore_pos

theorem phoneNoCc_cut : CutP phoneAlpha phoneNoCc :=
  optionalIf_cut _ _ _ (subset_not _ _ phoneAlpha_lparen) phoneCore_cut

theorem phoneNoCc_chars : CharsP phoneAlpha phoneNoCc :=
  optionalIf_chars _ _ _ phoneAlpha_lparen phoneCore_chars

theorem phoneNoCc_ext : ExtP phoneNoCc :=
  optionalIf_ext _ _ phoneCore_pos phoneCore_ext

theorem phonePlus_cons_plus (rest : List Char) :
    phonePlus ('+' :: rest) =
      match digitsN 2 (optionalIf isSpaceChar phoneNoCc) rest with
      | some n => some (n + 1)
      | none =>
        match digitsN 1 (optionalIf isSpaceChar phoneNoCc) rest with
        | some n => some (n + 1)
        | none => none := rfl

theorem phonePlus_not_plus (s : List Char) (h : s.head? ≠ some '+') :
    phonePlus s = none := by
  unfold phonePlus
  split
  · rename_i rest
    simp at h
  · rfl

theorem phonePlus_pos : PosP phonePlus := by
  intro s n h
  cases s with
  | nil => exact Option.noConfusion h
  | cons x rest =>
    by_cases hx : x = '+'
    · subst hx
      rw [phonePlus_cons_plus] at h
      cases h2 : digitsN 2 (optionalIf isSpaceChar phoneNoCc) rest with
      | some m =>
        rw [h2] at h
        have hmn : m + 1 = n := Option.some_inj.mp h
        omega
      | none =>
        rw [h2] at h
        cases h1 : digitsN 1 (optionalIf isSpaceChar phoneNoCc) rest with
        | some m =>
          rw [h1] at h
          have hmn : m + 1 = n := Option.some_inj.mp h
          omega
        | none =>
          rw [h1] at h
          exact Option.noConfusion h
    · rw [phonePlus_not_plus _ (by simp [hx])] at h
      exact Option.noConfusion h

theorem phonePlus_cut : CutP phoneAlpha phonePlus := by
  intro u c w hA
  have hplus : c ≠ '+' := by
    intro hc
    subst hc
    rw [phoneAlpha_plus] at hA
    exact Bool.noConfusion hA
  cases u with
  | nil =>
    simp only [List.nil_append]
    rw [phonePlus_not_plus _ (by simp [hplus]), phonePlus_not_plus _ (by simp [hplus])]
  | cons x u' =>
    simp only [List.cons_append]
    by_cases hx : x = '+'
    · subst hx
      rw [phonePlus_cons_plus, phonePlus_cons_plus]
      rw [digitsN_cut _ 2 _ (subset_not _ _ phoneAlpha_digit)
            (optionalIf_cut _ _ _ (subset_not _ _ phoneAlpha_space) phoneNoCc_cut)
            u' c w hA,
          digitsN_cut _ 1 _ (subset_not _ _ phoneAlpha_digit)
            (optionalIf_cut _ _ _ (subset_not _ _ phoneAlpha_space) phoneNoCc_cut)
            u' c w hA]
    · rw [phonePlus_not_plus _ (by simp [hx]), phonePlus_not_plus _ (by simp [hx])]

theorem phonePlus_chars : CharsP phoneAlpha phonePlus := by
  intro s n h i hi
  cases s with
  | nil => exact Option.noConfusion h
  | cons x rest =>
    by_cases hx : x = '+'
    · subst hx
      rw [phonePlus_cons_plus] at h
      have hchars2 := digitsN_chars _ 2 _ phoneAlpha_digit
        (optionalIf_chars _ _ _ phoneAlpha_space phoneNoCc_chars)
      have hchars1 := digitsN_chars _ 1 _ phoneAlpha_digit
        (optionalIf_chars _ _ _ phoneAlpha_space phoneNoCc_chars)
      cases h2 : digitsN 2 (optionalIf isSpaceChar phoneNoCc) rest with
      | some m =>
        rw [h2] at h
        have hmn : m + 1 = n := Option.some_inj.mp h
        cases i with
        | zero => exact ⟨'+', by simp, phoneAlpha_plus⟩
        | succ i' =>
          obtain ⟨a, ha, haA⟩ := hchars2 rest m h2 i' (by omega)
          exact ⟨a, by simpa using ha, haA⟩
      | none =>
        rw [h2] at h
        cases h1 : digitsN 1 (optionalIf isSpaceChar phoneNoCc) rest with
        | some m =>
          rw [h1] at h
          have hmn : m + 1 = n := Option.some_inj.mp h
          cases i with
          | zero => exact ⟨'+', by simp, phoneAlpha_plus⟩
          | succ i' =>
            obtain ⟨a, ha, haA⟩ := hchars1 rest m h1 i' (by omega)
            exact ⟨a, by simpa using ha, haA⟩
        | none =>
          rw [h1] at h
          exact Option.noConfusion h
    · rw [phonePlus_not_plus _ (by simp [hx])] at h
      exact Option.noConfusion h

theorem phonePlus_ext : ExtP phonePlus := by
  intro u v v' n h hn
  have hext2 : ExtP (digitsN 2 (optionalIf isSpaceChar phoneNoCc)) :=
    digitsN_ext 2 _ (optionalIf_ext _ _ phoneNoCc_pos phoneNoCc_ext)
  have hext1 : ExtP (digitsN 1 (optionalIf isSpaceChar phoneNoCc)) :=
    digitsN_ext 1 _ (optionalIf_ext _ _ phoneNoCc_pos phoneNoCc_ext)
  cases u with
  | nil =>
    have := phonePlus_pos _ n h
    simp at hn
    omega
  | cons x u' =>
    simp only [List.cons_append] at h ⊢
    by_cases hx : x = '+'
    · subst hx
      rw [phonePlus_cons_plus] at h
      rw [phonePlus_cons_plus]
      cases h2 : digitsN 2 (optionalIf isSpaceChar phoneNoCc) (u' ++ v) with
      | some m =>
        rw [h2] at h
        have hmn : m + 1 = n := Option.some_inj.mp h
        obtain ⟨m', hm'⟩ := hext2 u' v v' m h2 (by simp at hn; omega)
        rw [hm']
        exact ⟨m' + 1, rfl⟩
      | none =>
        rw [h2] at h
        cases h1 : digitsN 1 (optionalIf isSpaceChar phoneNoCc) (u' ++ v) with
        | some m =>
          rw [h1] at h
          have hmn : m + 1 = n := Option.some_inj.mp h
          obtain ⟨m', hm'⟩ := hext1 u' v v' m h1 (by simp at hn; omega)
          cases h2' : digitsN 2 (optionalIf isSpaceChar phoneNoCc) (u' ++ v') with
          | some mm => exact ⟨mm + 1, rfl⟩
          | none =>
            rw [hm']
            exact ⟨m' + 1, rfl⟩
        | none =>
          rw [h1] at h
          exact Option.noConfusion h
    · rw [phonePlus_not_plus _ (by simp [hx])] at h
      exact Option.noConfusion h

theorem tryPhone_eq (s : List Char) :
    tryPhone s =
      match phonePlus s with
      | some n => some n
      | none => phoneNoCc s := rfl

theorem tryPhone_pos : PosP tryPhone := by
  intro s n h
  rw [tryPhone_eq] at h
  cases hp : phonePlus s with
  | some m =>
    rw [hp] at h
    have hmn : m = n := Option.some_inj.mp h
    subst hmn
    exact phonePlus_pos s m hp
  | none =>
    rw [hp] at h
    exact phoneNoCc_pos s n h

theorem tryPhone_cut : CutP phoneAlpha tryPhone := by
  intro u c w hA
  rw [tryPhone_eq, tryPhone_eq, phonePlus_cut u c w hA, phoneNoCc_cut u c w hA]

theorem tryPhone_chars : CharsP phoneAlpha tryPhone := by
  intro s n h i hi
  rw [tryPhone_eq] at h
  cases hp : phonePlus s with
  | some m =>
    rw [hp] at h
    have hmn : m = n := Option.some_inj.mp h
    subst hmn
    exact phonePlus_chars s m hp i hi
  | none =>
    rw [hp] at h
    exact phoneNoCc_chars s n h i hi

theorem tryPhone_ext : ExtP tryPhone := by
  intro u v v' n h hn
  rw [tryPhone_eq] at h
  cases hp : phonePlus (u ++ v) with
  | some m =>
    rw [hp] at h
    have hmn : m = n := Option.some_inj.mp h
    subst hmn
    obtain ⟨m', hm'⟩ := phonePlus_ext u v v' m hp hn
    refine ⟨m', ?_⟩
    rw [tryPhone_eq, hm']
  | none =>
    rw [hp] at h
    obtain ⟨m', hm'⟩ := phoneNoCc_ext u v v' n h hn
    cases hpp : phonePlus (u ++ v') with
    | some k => exact ⟨k, by rw [tryPhone_eq, hpp]⟩
    | none => exact ⟨m', by rw [tryPhone_eq, hpp, hm']⟩

/-! ## UUID matcher lemmas -/

theorem uuidShape_chars (t : List Char) (h : uuidShape t = true) :
    ∀ i, i < 36 → ∃ a, t[i]? = some a ∧ uuidAlpha a = true := by
  intro i hi
  unfold uuidShape at h
  rw [Bool.and_eq_true] at h
  have hall := List.all_eq_true.mp h.2 i (List.mem_range.mpr hi)
  cases ht : t[i]? with
  | none =>
    rw [ht] at hall
    exact Bool.noConfusion hall
  | some c =>
    rw [ht] at hall
    have hall2 : (if i = 8 ∨ i = 13 ∨ i = 18 ∨ i = 23 then decide (c = '-')
        else isHexChar c) = true := hall
    refine ⟨c, rfl, ?_⟩
    by_cases hdash : i = 8 ∨ i = 13 ∨ i = 18 ∨ i = 23
    · rw [if_pos hdash] at hall2
      have : c = '-' := of_decide_eq_true hall2
      subst this
      decide
    · rw [if_neg hdash] at hall2
      simp [uuidAlpha, hall2]

theorem tryUuid_pos : PosP tryUuid := by
  intro s n h
  unfold tryUuid at h
  by_cases hs : uuidShape (s.take 36) = true
  · rw [if_pos hs] at h
    have : 36 = n := Option.some_inj.mp h
    omega
  · rw [if_neg hs] at h
    exact Option.noConfusion h

theorem tryUuid_chars : CharsP uuidAlpha tryUuid := by
  intro s n h i hi
  unfold tryUuid at h
  by_cases hs : uuidShape (s.take 36) = true
  · rw [if_pos hs] at h
    have hn : 36 = n := Option.some_inj.mp h
    obtain ⟨a, ha, haA⟩ := uuidShape_chars _ hs i (by omega)
    refine ⟨a, ?_, haA⟩
    rw [List.getElem?_take] at ha
    rw [if_pos (by omega : i < 36)] at ha
    exact ha
  · rw [if_neg hs] at h
    exact Option.noConfusion h

theorem tryUuid_cut : CutP uuidAlpha tryUuid := by
  intro u c w hA
  by_cases h36 : 36 ≤ u.length
  · unfold tryUuid
    rw [List.take_append_of_le_length h36, List.take_append_of_le_length h36]
  · push_neg at h36
    have hshape : ∀ z : List Char, (u ++ c :: z)[u.length]? = some c →
        uuidShape ((u ++ c :: z).take 36) = false := by
      intro z hz
      cases hs : uuidShape ((u ++ c :: z).take 36)
      · rfl
      · obtain ⟨a, ha, haA⟩ := uuidShape_chars _ hs u.length h36
        rw [List.getElem?_take] at ha
        rw [if_pos h36, hz] at ha
        have : c = a := Option.some_inj.mp ha
        subst this
        rw [haA] at hA
        exact Bool.noConfusion hA
    have hc1 : (u ++ c :: w)[u.length]? = some c := by
      rw [List.getElem?_append_right (le_refl u.length)]
      simp
    have hc2 : (u ++ c :: ([] : List Char))[u.length]? = some c := by
      rw [List.getElem?_append_right (le_refl u.length)]
      simp
    unfold tryUuid
    rw [if_neg (by rw [hshape w hc1]; exact Bool.false_ne_true)]
    rw [if_neg (by rw [hshape [] hc2]; exact Bool.false_ne_true)]

theorem tryUuid_ext : ExtP tryUuid := by
  intro u v v' n h hn
  unfold tryUuid at h
  by_cases hs : uuidShape ((u ++ v).take 36) = true
  · rw [if_pos hs] at h
    have hn36 : 36 = n := Option.some_inj.mp h
    have h36 : 36 ≤ u.length := by omega
    refine ⟨36, ?_⟩
    unfold tryUuid
    rw [List.take_append_of_le_length h36]
    rw [List.take_append_of_le_length h36] at hs
    rw [if_pos hs]
  · rw [if_neg hs] at h
    exact Option.noConfusion h

/-! ## Scanner decomposition -/

theorem scanLen_nil (tm : List Char → Option Nat) : scanLen tm [] = 0 := rfl

theorem scanLen_cons (tm : List Char → Option Nat) (c : Char) (rest : List Char) :
    scanLen tm (c :: rest) =
      match tm (c :: rest) with
      | some _ => 0
      | none => scanLen tm rest + 1 := rfl

theorem scanLen_le (tm : List Char → Option Nat) (s : List Char) :
    scanLen tm s ≤ s.length := by
  induction s with
  | nil => simp [scanLen_nil]
  | cons c rest ih =>
    rw [scanLen_cons]
    cases htm : tm (c :: rest) with
    | some n => simp
    | none => simpa using Nat.succ_le_succ ih

theorem replaceAll_scan (tm : List Char → Option Nat) (m : List Char) (s : List Char) :
    replaceAll tm m s =
      List.take (scanLen tm s) s ++ replaceAll tm m (List.drop (scanLen tm s) s) := by
  induction s with
  | nil => rfl
  | cons c rest ih =>
    cases htm : tm (c :: rest) with
    | some n =>
      rw [scanLen_cons, htm]
      simp
    | none =>
      rw [scanLen_cons, htm]
      rw [replaceAll_cons_none tm m c rest htm, ih]
      simp [List.take_succ_cons, List.drop_succ_cons]

theorem scanLen_stops (tm : List Char → Option Nat) (s : List Char)
    (h : List.drop (scanLen tm s) s ≠ []) :
    ∃ n, tm (List.drop (scanLen tm s) s) = some n := by
  induction s with
  | nil => simp at h
  | cons c rest ih =>
    rw [scanLen_cons] at h ⊢
    cases htm : tm (c :: rest) with
    | some n => exact ⟨n, htm⟩
    | none =>
      rw [htm] at h
      exact ih h

/-! ## No remaining match means identity -/

theorem replaceAll_of_noMatch (tm : List Char → Option Nat) (m : List Char)
    (s : List Char) (h : noMatchAll tm s) : replaceAll tm m s = s := by
  induction s with
  | nil => rfl
  | cons c rest ih =>
    have h0 : tm (c :: rest) = none := by simpa using h 0
    rw [replaceAll_cons_none tm m c rest h0]
    congr 1
    apply ih
    intro p
    have := h (p + 1)
    rwa [List.drop_succ_cons] at this

/-! ## Matches cannot start inside a marker suffix -/

theorem cut_marker (tm : List Char → Option Nat) (AX : Char → Bool) (m : List Char)
    (hcut : CutP AX tm) (hbr2 : AX ']' = false)
    (hlast : ∀ p, p < m.length → (List.drop p m).getLast? = some ']')
    (hnone : ∀ p, p < m.length → tm (List.drop p m) = none) :
    ∀ p w, p < m.length → tm (List.drop p m ++ w) = none := by
  intro p w hp
  have hne : List.drop p m ≠ [] := by
    intro hnil
    have := hlast p hp
    rw [hnil] at this
    simp at this
  have hdecomp : List.drop p m = (List.drop p m).dropLast ++ [']'] := by
    have hg := hlast p hp
    have hgl := List.getLast?_eq_getLast (List.drop p m) hne
    rw [hgl] at hg
    have hlast' : (List.drop p m).getLast hne = ']' := Option.some_inj.mp hg
    rw [← hlast']
    exact (List.dropLast_append_getLast hne).symm
  rw [hdecomp, List.append_assoc, List.singleton_append]
  rw [hcut _ ']' w hbr2]
  rw [← hdecomp]
  exact hnone p hp

/-! ## Replacement never creates a match at the scan origin -/

/-- If no match of `tmX` starts at the head of `s`, then no match of
`tmX` starts at the head of the `tmY`-replaced form of `s`: the output
agrees with `s` on the literal scan prefix, a match cannot reach past
the marker's opening bracket, and a match inside the common prefix
would transfer back to `s`. -/
theorem trans_noMatch (tmX tmY : List Char → Option Nat) (mY : List Char)
    (AX : Char → Bool)
    (hcut : CutP AX tmX) (hchars : CharsP AX tmX) (hext : ExtP tmX)
    (hbr : AX '[' = false) (hmhead : ∃ mrest, mY = '[' :: mrest)
    (s : List Char) (hXs : tmX s = none) :
    tmX (replaceAll tmY mY s) = none := by
  have hdec := replaceAll_scan tmY mY s
  cases hdrop : List.drop (scanLen tmY s) s with
  | nil =>
    have hjlen : s.length ≤ scanLen tmY s := by
      have := congrArg List.length hdrop
      rw [List.length_drop] at this
      simp only [List.length_nil] at this
      omega
    have htake : List.take (scanLen tmY s) s = s := List.take_of_length_le hjlen
    rw [hdec, hdrop]
    rw [show replaceAll tmY mY [] = [] from rfl, List.append_nil, htake]
    exact hXs
  | cons d drest =>
    obtain ⟨n, hn⟩ := scanLen_stops tmY s (by rw [hdrop]; simp)
    rw [hdrop] at hn
    have hsome : replaceAll tmY mY (d :: drest) =
        mY ++ replaceAll tmY mY (List.drop (max n 1) (d :: drest)) :=
      replaceAll_cons_some tmY mY d drest n hn
    obtain ⟨mrest, hmY⟩ := hmhead
    have hR : replaceAll tmY mY s = List.take (scanLen tmY s) s ++
        '[' :: (mrest ++ replaceAll tmY mY (List.drop (max n 1) (d :: drest))) := by
      rw [hdec, hdrop, hsome, hmY]
      simp
    rw [hR]
    cases hk : tmX (List.take (scanLen tmY s) s ++
        '[' :: (mrest ++ replaceAll tmY mY (List.drop (max n 1) (d :: drest)))) with
    | none => rfl
    | some k =>
      exfalso
      have hcutk : tmX (List.take (scanLen tmY s) s ++ ['[']) = some k := by
        rw [← hcut (List.take (scanLen tmY s) s) '['
          (mrest ++ replaceAll tmY mY (List.drop (max n 1) (d :: drest))) hbr]
        exact hk
      have hjtake : (List.take (scanLen tmY s) s).length = scanLen tmY s := by
        rw [List.length_take]
        have := scanLen_le tmY s
        omega
      by_cases hkj : k ≤ scanLen tmY s
      · obtain ⟨m, hm⟩ := hext (List.take (scanLen tmY s) s) ['[']
          (List.drop (scanLen tmY s) s) k hcutk (by omega)
        rw [List.take_append_drop] at hm
        rw [hXs] at hm
        exact Option.noConfusion hm
      · push_neg at hkj
        obtain ⟨a, ha, haA⟩ := hchars _ k hcutk (scanLen tmY s) hkj
        rw [List.getElem?_append_right (by omega)] at ha
        rw [hjtake, Nat.sub_self] at ha
        simp only [List.getElem?_cons_zero, Option.some_inj] at ha
        subst ha
        rw [haA] at hbr
        exact Bool.noConfusion hbr

/-! ## No match anywhere in the replaced output -/

/-- Main exhaustion theorem: if at every literal scan position of `s`
(where `tmY` fails) `tmX` fails as well, then no `tmX` match starts
anywhere in the `tmY`-replaced output.  Instantiated with `tmX = tmY`
it says replacement is exhaustive; with the two matchers different it
says replacement by `tmY` preserves `tmX`-freeness. -/
theorem replaceAll_noMatch (tmX tmY : List Char → Option Nat) (mY : List Char)
    (AX : Char → Bool)
    (hcut : CutP AX tmX) (hchars : CharsP AX tmX) (hext : ExtP tmX)
    (hbr : AX '[' = false) (hmhead : ∃ mrest, mY = '[' :: mrest)
    (hposY : PosP tmY) (hX0 : tmX [] = none)
    (hmk : ∀ p (w : List Char), p < mY.length → tmX (List.drop p mY ++ w) = none) :
    ∀ s, (∀ p, tmY (List.drop p s) = none → tmX (List.drop p s) = none) →
      noMatchAll tmX (replaceAll tmY mY s) := by
  suffices H : ∀ N s, s.length ≤ N →
      (∀ p, tmY (List.drop p s) = none → tmX (List.drop p s) = none) →
      noMatchAll tmX (replaceAll tmY mY s) by
    intro s hyp
    exact H s.length s le_rfl hyp
  intro N
  induction N with
  | zero =>
    intro s hs _
    have : s = [] := List.length_eq_zero.mp (Nat.le_zero.mp hs)
    subst this
    intro p
    rw [show replaceAll tmY mY [] = [] from rfl]
    simpa using hX0
  | succ NN ih =>
    intro s hs hyp
    cases s with
    | nil =>
      intro p
      rw [show replaceAll tmY mY [] = [] from rfl]
      simpa using hX0
    | cons c rest =>
      simp only [List.length_cons] at hs
      cases htm : tmY (c :: rest) with
      | some n =>
        have hn1 : 1 ≤ n := hposY _ _ htm
        have hmax : max n 1 = n := by omega
        rw [replaceAll_cons_some tmY mY c rest n htm, hmax]
        intro p
        by_cases hp : p < mY.length
        · rw [List.drop_append_of_le_length (by omega)]
          exact hmk p _ hp
        · push_neg at hp
          obtain ⟨q, hq⟩ : ∃ q, p = mY.length + q := ⟨p - mY.length, by omega⟩
          subst hq
          rw [List.drop_append]
          have hlen : (List.drop n (c :: rest)).length ≤ NN := by
            rw [List.length_drop]
            simp only [List.length_cons]
            omega
          have hypd : ∀ p', tmY (List.drop p' (List.drop n (c :: rest))) = none →
              tmX (List.drop p' (List.drop n (c :: rest))) = none := by
            intro p' h'
            rw [List.drop_drop] at h' ⊢
            exact hyp (n + p') h'
          exact ih (List.drop n (c :: rest)) hlen hypd q
      | none =>
        rw [replaceAll_cons_none tmY mY c rest htm]
        intro p
        cases p with
        | zero =>
          rw [List.drop_zero]
          rw [show c :: replaceAll tmY mY rest = replaceAll tmY mY (c :: rest) from
            (replaceAll_cons_none tmY mY c rest htm).symm]
          apply trans_noMatch tmX tmY mY AX hcut hchars hext hbr hmhead
          have := hyp 0
          rw [List.drop_zero] at this
          exact this htm
        | succ q =>
          rw [List.drop_succ_cons]
          have hlen : rest.length ≤ NN := by omega
          have hypr : ∀ p', tmY (List.drop p' rest) = none →
              tmX (List.drop p' rest) = none := by
            intro p' h'
            have := hyp (p' + 1)
            rw [List.drop_succ_cons] at this
            exact this h'
          exact ih rest hlen hypr q

/-! ## Concrete marker facts -/

theorem emailAlpha_lbr : emailAlpha '[' = false := by decide

theorem emailAlpha_rbr : emailAlpha ']' = false := by decide

theorem phoneAlpha_lbr : phoneAlpha '[' = false := by decide

theorem phoneAlpha_rbr : phoneAlpha ']' = false := by decide

theorem uuidAlpha_lbr : uuidAlpha '[' = false := by decide

theorem uuidAlpha_rbr : uuidAlpha ']' = false := by decide

theorem emailMarker_head : ∃ mrest, emailMarker = '[' :: mrest :=
  ⟨"REDACTED_EMAIL]".data, by decide⟩

theorem phoneMarker_head : ∃ mrest, phoneMarker = '[' :: mrest :=
  ⟨"REDACTED_PHONE]".data, by decide⟩

theorem uuidMarker_head : ∃ mrest, uuidMarker = '[' :: mrest :=
  ⟨"REDACTED_UUID]".data, by decide⟩

theorem emailMarker_last : ∀ p, p < emailMarker.length →
    (List.drop p emailMarker).getLast? = some ']' := by decide

theorem phoneMarker_last : ∀ p, p < phoneMarker.length →
    (List.drop p phoneMarker).getLast? = some ']' := by decide

theorem uuidMarker_last : ∀ p, p < uuidMarker.length →
    (List.drop p uuidMarker).getLast? = some ']' := by decide

theorem tryEmail_on_emailMarker : ∀ p, p < emailMarker.length →
    tryEmail (List.drop p emailMarker) = none := by decide

theorem tryEmail_on_phoneMarker : ∀ p, p < phoneMarker.length →
    tryEmail (List.drop p phoneMarker) = none := by decide

theorem tryEmail_on_uuidMarker : ∀ p, p < uuidMarker.length →
    tryEmail (List.drop p uuidMarker) = none := by decide

theorem tryPhone_on_phoneMarker : ∀ p, p < phoneMarker.length →
    tryPhone (List.drop p phoneMarker) = none := by decide

theorem tryPhone_on_uuidMarker : ∀ p, p < uuidMarker.length →
    tryPhone (List.drop p uuidMarker) = none := by decide

theorem tryUuid_on_uuidMarker : ∀ p, p < uuidMarker.length →
    tryUuid (List.drop p uuidMarker) = none := by decide

theorem tryEmail_nil : tryEmail [] = none := by decide

theorem tryPhone_nil : tryPhone [] = none := by decide

theorem tryUuid_nil : tryUuid [] = none := by decide

theorem hmk_email_email : ∀ p (w : List Char), p < emailMarker.length →
    tryEmail (List.drop p emailMarker ++ w) = none := fun p w hp =>
  cut_marker tryEmail emailAlpha emailMarker tryEmail_cut emailAlpha_rbr
    emailMarker_last tryEmail_on_emailMarker p w hp

theorem hmk_email_phone : ∀ p (w : List Char), p < phoneMarker.length →
    tryEmail (List.drop p phoneMarker ++ w) = none := fun p w hp =>
  cut_marker tryEmail emailAlpha phoneMarker tryEmail_cut emailAlpha_rbr
    phoneMarker_last tryEmail_on_phoneMarker p w hp

theorem hmk_email_uuid : ∀ p (w : List Char), p < uuidMarker.length →
    tryEmail (List.drop p uuidMarker ++ w) = none := fun p w hp =>
  cut_marker tryEmail emailAlpha uuidMarker tryEmail_cut emailAlpha_rbr
    uuidMarker_last tryEmail_on_uuidMarker p w hp

theorem hmk_phone_phone : ∀ p (w : List Char), p < phoneMarker.length →
    tryPhone (List.drop p phoneMarker ++ w) = none := fun p w hp =>
  cut_marker tryPhone phoneAlpha phoneMarker tryPhone_cut phoneAlpha_rbr
    phoneMarker_last tryPhone_on_phoneMarker p w hp

theorem hmk_phone_uuid : ∀ p (w : List Char), p < uuidMarker.length →
    tryPhone (List.drop p uuidMarker ++ w) = none := fun p w hp =>
  cut_marker tryPhone phoneAlpha uuidMarker tryPhone_cut phoneAlpha_rbr
    uuidMarker_last tryPhone_on_uuidMarker p w hp

theorem hmk_uuid_uuid : ∀ p (w : List Char), p < uuidMarker.length →
    tryUuid (List.drop p uuidMarker ++ w) = none := fun p w hp =>
  cut_marker tryUuid uuidAlpha uuidMarker tryUuid_cut uuidAlpha_rbr
    uuidMarker_last tryUuid_on_uuidMarker p w hp

/-! ## Exhaustiveness and idempotence of the redactor -/

theorem redactChars_noMatch (s : List Char) :
    noMatchAll tryEmail (redactChars s) ∧
    noMatchAll tryPhone (redactChars s) ∧
    noMatchAll tryUuid (redactChars s) := by
  have e1 : noMatchAll tryEmail (replaceAll tryEmail emailMarker s) :=
    replaceAll_noMatch tryEmail tryEmail emailMarker emailAlpha tryEmail_cut
      tryEmail_chars tryEmail_ext emailAlpha_lbr emailMarker_head tryEmail_pos
      tryEmail_nil hmk_email_email s (fun _ h => h)
  have e2 : noMatchAll tryEmail
      (replaceAll tryPhone phoneMarker (replaceAll tryEmail emailMarker s)) :=
    replaceAll_noMatch tryEmail tryPhone phoneMarker emailAlpha tryEmail_cut
      tryEmail_chars tryEmail_ext emailAlpha_lbr phoneMarker_head tryPhone_pos
      tryEmail_nil hmk_email_phone _ (fun p _ => e1 p)
  have e3 : noMatchAll tryEmail (redactChars s) :=
    replaceAll_noMatch tryEmail tryUuid uuidMarker emailAlpha tryEmail_cut
      tryEmail_chars tryEmail_ext emailAlpha_lbr uuidMarker_head tryUuid_pos
      tryEmail_nil hmk_email_uuid _ (fun p _ => e2 p)
  have p1 : noMatchAll tryPhone
      (replaceAll tryPhone phoneMarker (replaceAll tryEmail emailMarker s)) :=
    replaceAll_noMatch tryPhone tryPhone phoneMarker phoneAlpha tryPhone_cut
      tryPhone_chars tryPhone_ext phoneAlpha_lbr phoneMarker_head tryPhone_pos
      tryPhone_nil hmk_phone_phone _ (fun _ h => h)
  have p2 : noMatchAll tryPhone (redactChars s) :=
    replaceAll_noMatch tryPhone tryUuid uuidMarker phoneAlpha tryPhone_cut
      tryPhone_chars tryPhone_ext phoneAlpha_lbr uuidMarker_head tryUuid_pos
      tryPhone_nil hmk_phone_uuid _ (fun p _ => p1 p)
  have u1 : noMatchAll tryUuid (redactChars s) :=
    replaceAll_noMatch tryUuid tryUuid uuidMarker uuidAlpha tryUuid_cut
      tryUuid_chars tryUuid_ext uuidAlpha_lbr uuidMarker_head tryUuid_pos
      tryUuid_nil hmk_uuid_uuid _ (fun _ h => h)
  exact ⟨e3, p2, u1⟩

theorem redactChars_idem (s : List Char) :
    redactChars (redactChars s) = redactChars s := by
  obtain ⟨he, hp, hu⟩ := redactChars_noMatch s
  have hstep : redactChars (redactChars s) =
      replaceAll tryUuid uuidMarker (replaceAll tryPhone phoneMarker
        (replaceAll tryEmail emailMarker (redactChars s))) := rfl
  rw [hstep, replaceAll_of_noMatch tryEmail emailMarker _ he,
    replaceAll_of_noMatch tryPhone phoneMarker _ hp,
    replaceAll_of_noMatch tryUuid uuidMarker _ hu]

theorem redactStr_idem (b : String) : redactStr (redactStr b) = redactStr b := by
  unfold redactStr
  rw [show (String.mk (redactChars b.data)).data = redactChars b.data from rfl]
  rw [redactChars_idem]

/-! ## C8 — exhaustive, flag-correct, idempotent redaction -/

/-- C8: with redaction enabled and no keyword match, the governance
filter forwards the redacted body: the redaction replaces all
non-overlapping matches in the order e-mail, phone, UUID, after which
no e-mail-like, phone-like or UUID-like token (no match of any of the
three patterns) remains anywhere in the body; the redaction flag is
set exactly when the replacement changed the body; and redacting a
second time changes nothing. -/
theorem c8_redaction_exhaustive_idempotent (b : String) :
    noMatchAll tryEmail (redactChars b.data) ∧
    noMatchAll tryPhone (redactChars b.data) ∧
    noMatchAll tryUuid (redactChars b.data) ∧
    redactStr (redactStr b) = redactStr b ∧
    (∀ (kws : List String) (next : Handler) (r : Req) (ps : PipeState),
      r.method = "POST" → r.body = some b → govBlockSignal kws b = false →
      governanceMW kws true next r ps =
        next { r with body := some (redactStr b) }
          { ps with ctxRedacted := some (decide (redactStr b ≠ b)) }) := by
  obtain ⟨he, hp, hu⟩ := redactChars_noMatch b.data
  refine ⟨he, hp, hu, redactStr_idem b, ?_⟩
  intro kws next r ps hm hb hkw
  have hkw' : (kws.any fun kw => containsCI b kw) = false := hkw
  simp [governanceMW, hm, hb, hkw']

/-- Witness for C8 at a concrete body containing an e-mail token. -/
theorem c8_redaction_exhaustive_idempotent_witness :
    redactStr (redactStr "write to a@b.co") = redactStr "write to a@b.co" ∧
    governanceMW ["drop"] true stubHandler
      { method := "POST", path := "/v1/chat", headers := [],
        body := some "write to a@b.co" } (freshState []) =
      stubHandler
        { method := "POST", path := "/v1/chat", headers := [],
          body := some (redactStr "write to a@b.co") }
        { (freshState []) with
          ctxRedacted :=
            some (decide (redactStr "write to a@b.co" ≠ "write to a@b.co")) } :=
  ⟨(c8_redaction_exhaustive_idempotent "write to a@b.co").2.2.2.1,
   (c8_redaction_exhaustive_idempotent "write to a@b.co").2.2.2.2 ["drop"]
     stubHandler _ _ rfl rfl (by decide)⟩

end Vantage
